import Mathlib

/-!
Verification of the tic-tac-toe decision engine in `src/game.js`.

The source mutates a single shared 9-cell board in place during search and
restores every cell before returning, so the search routines are embedded in
state-passing style: each one returns its result together with the board it
leaves behind.  JavaScript `null` cells are `Option.none`; a read of
`board[i]` that falls outside the array (JS `undefined`) is modelled by
`List.get?` returning `none` at the outer level, so the occupancy test
`board[idx] !== null` is `get? idx ≠ some none`.  JS `Infinity` only ever
meets scores in `[-109, 109]` in this program, so it is modelled by the
integer `1000`, which compares identically against every reachable score.
`Math.floor(Math.random()*n)` is an arbitrary value in `[0, n)`, modelled by
`r % n` for a universally quantified `r : Nat`.
-/

namespace TicTacToe

/-- A player's symbol, JS string 'X' or 'O'. -/
inductive Mark where
  | X : Mark
  | O : Mark
deriving DecidableEq, Repr, Fintype

/-- The other symbol, JS `s === 'X' ? 'O' : 'X'`. -/
def Mark.other : Mark → Mark
  | .X => .O
  | .O => .X

/-- One board cell: `null` or a mark. -/
abbrev Cell := Option Mark

/-- `GAME.board`: 9 cells, row-major. -/
abbrev Board := List Cell

/-- A winning index triple. -/
abbrev Line := Nat × Nat × Nat

/-- `WINNING_LINES`: 3 rows, 3 columns, 2 diagonals, in source order. -/
def WINNING_LINES : List Line :=
  [(0,1,2), (3,4,5), (6,7,8), (0,3,6), (1,4,7), (2,5,8), (0,4,8), (2,4,6)]

/-- JS read `board[i]` in a context where both `null` and `undefined`
count as empty (the rules engine only indexes 0–8 of a 9-cell board). -/
def cellAt (b : Board) (i : Nat) : Cell := (b[i]?).getD none

/-- JS read `board[i]` for an `Int` index keeping the `null`/`undefined`
distinction: `none` is `undefined` (out of range), `some none` is `null`. -/
def jsAt (b : Board) (i : Int) : Option Cell :=
  if i < 0 then none else b[i.toNat]?

/-- Result of `checkWin`: `{ winner, line }`. -/
structure WinInfo where
  winner : Mark
  line : Line
deriving DecidableEq, Repr

/-- One iteration of the `checkWin` loop body:
`board[a] && board[a]===board[b] && board[a]===board[c]`. -/
def lineWinner (board : Board) (l : Line) : Option WinInfo :=
  match cellAt board l.1 with
  | some m =>
      if cellAt board l.2.1 = some m ∧ cellAt board l.2.2 = some m then
        some ⟨m, l⟩
      else none
  | none => none

/-- The `for (let line of WINNING_LINES)` loop of `checkWin`. -/
def findWin (board : Board) : List Line → Option WinInfo
  | [] => none
  | l :: ls =>
    match lineWinner board l with
    | some w => some w
    | none => findWin board ls

/-- `checkWin(board)`: first complete line in scan order, else `null`. -/
def checkWin (board : Board) : Option WinInfo := findWin board WINNING_LINES

/-- `isDraw(board)`: every cell non-null and no win. -/
def isDraw (board : Board) : Bool :=
  board.all (fun c => c.isSome) && (checkWin board).isNone

/-- The terminal classification `makeMove` derives from `checkWin`/`isDraw`. -/
inductive Outcome where
  | inProgress : Outcome
  | win : Mark → Line → Outcome
  | draw : Outcome
deriving DecidableEq, Repr

/-- The combined `checkWin`/`isDraw` classification, in the order
`makeMove` applies them: win first, then draw, else in progress. -/
def evaluate (board : Board) : Outcome :=
  match checkWin board with
  | some w => .win w.winner w.line
  | none => if isDraw board then .draw else .inProgress

/-- Modelled from the spec: a line whose three cells are non-empty and
identical (used only to state properties, never by the engine). -/
def lineComplete (b : Board) (l : Line) : Prop :=
  ∃ m : Mark, cellAt b l.1 = some m ∧ cellAt b l.2.1 = some m ∧ cellAt b l.2.2 = some m

/-- `GAME.scores`. -/
structure Scores where
  tallyX : Nat
  tallyO : Nat
  tallyDraw : Nat
deriving DecidableEq, Repr

/-- `GAME.scores[winner] += 1`. -/
def addWin (s : Scores) (m : Mark) : Scores :=
  match m with
  | .X => { s with tallyX := s.tallyX + 1 }
  | .O => { s with tallyO := s.tallyO + 1 }

/-- The core fields of the global `GAME` object.  (The `history` strings
contain wall-clock timestamps and feed only the presentation layer, so they
are not modelled.) -/
structure Game where
  board : Board
  currentPlayer : Mark
  running : Bool
  mode : String
  aiLevel : String
  playerSymbol : Mark
  scores : Scores
  winningLine : Option Line
  lastMoveIndex : Option Int
deriving DecidableEq, Repr

/-- The initial `GAME` literal. -/
def initialGame : Game where
  board := List.replicate 9 none
  currentPlayer := .X
  running := false
  mode := "pvp"
  aiLevel := "easy"
  playerSymbol := .X
  scores := ⟨0, 0, 0⟩
  winningLine := none
  lastMoveIndex := none

/-- Result of `makeMove`: the updated state, the JS return value, and
whether a `setTimeout(aiMakeMove, …)` was issued. -/
structure MoveResult where
  game : Game
  returned : Bool
  scheduledAI : Bool
deriving Repr

/-- `makeMove(idx, mark)`: occupancy check (`board[idx] !== null`, which
also rejects out-of-range indices since JS yields `undefined` there), write
the mark, then terminal handling or turn flip plus AI scheduling. -/
def makeMove (g : Game) (idx : Int) (mark : Mark) : MoveResult :=
  if jsAt g.board idx ≠ some none then ⟨g, false, false⟩
  else
    let b := g.board.set idx.toNat (some mark)
    let g1 := { g with board := b, lastMoveIndex := some idx }
    match checkWin b with
    | some w =>
        ⟨{ g1 with running := false, winningLine := some w.line,
                   scores := addWin g1.scores w.winner }, true, false⟩
    | none =>
        if isDraw b then
          ⟨{ g1 with running := false, winningLine := none,
                     scores := { g1.scores with
                                 tallyDraw := g1.scores.tallyDraw + 1 } },
           true, false⟩
        else
          let next := if mark = .X then Mark.O else Mark.X
          let g2 := { g1 with currentPlayer := next }
          ⟨g2, true, decide (g2.mode = "pvc") && decide (next ≠ g2.playerSymbol)⟩

/-- `humanMove(idx)`: guard on `running`, occupancy, and (in PvC) turn
ownership before delegating to `makeMove`.  Returns the state and whether
an AI move was scheduled. -/
def humanMove (g : Game) (idx : Int) : Game × Bool :=
  if !g.running then (g, false)
  else if jsAt g.board idx ≠ some none then (g, false)
  else if g.mode = "pvc" then
    if g.currentPlayer ≠ g.playerSymbol then (g, false)
    else
      let r := makeMove g idx g.currentPlayer
      (r.game, r.scheduledAI)
  else
    let r := makeMove g idx g.currentPlayer
    (r.game, r.scheduledAI)

/-- `startGame()`: unconditionally reset the board and flags from the three
select values; the returned flag records the `setTimeout(aiMakeMove, 250)`
issued when the AI is to open. -/
def startGame (g : Game) (mode level : String) (sym : Mark) : Game × Bool :=
  let g1 : Game :=
    { g with board := List.replicate 9 none, running := true,
             winningLine := none, lastMoveIndex := none,
             mode := mode, aiLevel := level, playerSymbol := sym,
             currentPlayer := .X }
  (g1, decide (mode = "pvc") && decide (sym ≠ Mark.X))

/-! ### AI strategies -/

/-- JS `Infinity` as used by the searches.  Every score this program
produces lies in `[-109, 109]`, so `1000` compares identically. -/
def INF : Int := 1000

/-- `aiRandomMove(board)`: the empty indices (`flatMap` over the array with
index) and a uniformly random pick, the random draw being `rnd % length`. -/
def aiRandomMove (board : Board) (rnd : Nat) : Option Nat :=
  let empties := board.enum.filterMap fun p => if p.2 = none then some p.1 else none
  if empties.length = 0 then none
  else some (empties.getD (rnd % empties.length) 0)

/-- Result record of `minimax`: `{ index, score }`.  The source's terminal
returns omit `index` (JS `undefined`); they are modelled with `-1`, which
the only consumer (`aiMakeMove`'s `idx < 0` validity test) treats exactly
like `undefined` (`typeof idx !== 'number'`): both trigger the fallback. -/
structure MMResult where
  index : Int
  score : Int
deriving DecidableEq, Repr

/-- The maximizing `for` loop of `minimax`: try each empty cell, undo it,
keep the strictly-better result re-indexed to the cell, raise `alpha`, and
break once `beta ≤ alpha`.  `next b a` is the recursive call with board `b`
and alpha `a` (`beta` is fixed in this loop). -/
def abMax (next : Board → Int → MMResult × Board) (m : Mark) :
    List Nat → Board → MMResult → Int → Int → MMResult × Board
  | [], b, best, _, _ => (best, b)
  | i :: rest, b, best, alpha, beta =>
    match b[i]? with
    | some none =>
      let p := next (b.set i (some m)) alpha
      let b2 := p.2.set i none
      let best2 := if p.1.score > best.score then MMResult.mk (i : Int) p.1.score else best
      let alpha2 := max alpha p.1.score
      if beta ≤ alpha2 then (best2, b2)
      else abMax next m rest b2 best2 alpha2 beta
    | _ => abMax next m rest b best alpha beta

/-- The minimizing `for` loop of `minimax`; mirror image of `abMax` with
`beta` shrinking (`alpha` is fixed in this loop). -/
def abMin (next : Board → Int → MMResult × Board) (m : Mark) :
    List Nat → Board → MMResult → Int → Int → MMResult × Board
  | [], b, best, _, _ => (best, b)
  | i :: rest, b, best, alpha, beta =>
    match b[i]? with
    | some none =>
      let p := next (b.set i (some m)) beta
      let b2 := p.2.set i none
      let best2 := if p.1.score < best.score then MMResult.mk (i : Int) p.1.score else best
      let beta2 := min beta p.1.score
      if beta2 ≤ alpha then (best2, b2)
      else abMin next m rest b2 best2 alpha beta2
    | _ => abMin next m rest b best alpha beta

/-- `minimax(board, aiSymbol, humanSymbol, isAiTurn, alpha, beta, depth)`.
The extra `fuel` argument bounds the recursion; each level consumes one
fuel and each recursive call fills one empty cell, so the fuel-0 stub is
unreachable whenever `fuel` exceeds the number of empty cells: `fuel = 9`
suffices on boards with at least one mark (the only boards the selector
searches), and `fuel = 10` on every 9-cell board including the empty one.
The win test falls through to the rest of the body when the winner matches
neither symbol, exactly as the source's two early returns do. -/
def minimax : Nat → Board → Mark → Mark → Bool → Int → Int → Nat → MMResult × Board
  | 0, b, _, _, _, _, _, _ => (⟨-1, 0⟩, b)
  | fuel+1, b, aiS, hS, isAiTurn, alpha, beta, depth =>
    let rest : MMResult × Board :=
      if isDraw b then (⟨-1, 0⟩, b)
      else if isAiTurn then
        abMax (fun b' a' => minimax fuel b' aiS hS false a' beta (depth+1)) aiS
          (List.range 9) b ⟨-1, -INF⟩ alpha beta
      else
        abMin (fun b' b'' => minimax fuel b' aiS hS true alpha b'' (depth+1)) hS
          (List.range 9) b ⟨-1, INF⟩ alpha beta
    match checkWin b with
    | some w =>
        if w.winner = aiS then (⟨-1, 100 - (depth : Int)⟩, b)
        else if w.winner = hS then (⟨-1, -100 + (depth : Int)⟩, b)
        else rest
    | none => rest

/-- `aiMinimaxMove(board, aiSymbol)`: random corner on an all-empty board
(the opening book), else the index of a root alpha-beta search on a copy
(`board.slice()`) of the board. -/
def aiMinimaxMove (board : Board) (aiS : Mark) (rnd : Nat) : Int :=
  let human := if aiS = .X then Mark.O else Mark.X
  if board.all (fun c => c = none) then
    ([0, 2, 6, 8] : List Int).getD (rnd % 4) 0
  else
    (minimax 9 board aiS human true (-INF) INF 0).1.index

/-- The depth-cutoff static evaluation of `limitedMinimaxScore`:
center ±6, each corner ±3. -/
def staticEval (board : Board) (aiS hS : Mark) : Int :=
  let center : Int :=
    if cellAt board 4 = some aiS then 6
    else if cellAt board 4 = some hS then -6 else 0
  let corners : Int :=
    ([0, 2, 6, 8] : List Nat).foldl
      (fun s i =>
        s + (if cellAt board i = some aiS then 3
             else if cellAt board i = some hS then -3 else 0)) 0
  center + corners

/-- The unpruned `for` loop of `limitedMinimaxScore` (`Math.max`/`Math.min`
accumulation, mutate then undo). -/
def lmLoop (next : Board → Int × Board) (m : Mark) (isMax : Bool) :
    List Nat → Board → Int → Int × Board
  | [], b, best => (best, b)
  | i :: rest, b, best =>
    match b[i]? with
    | some none =>
      let p := next (b.set i (some m))
      let b2 := p.2.set i none
      lmLoop next m isMax rest b2 (if isMax then max best p.1 else min best p.1)
    | _ => lmLoop next m isMax rest b best

/-- `limitedMinimaxScore(board, aiSymbol, humanSymbol, depth, isAiTurn)`:
±100 at a decided board, 0 at a draw, static evaluation at depth 0, else an
unpruned one-symbol-per-ply search.  Structural recursion on `depth`. -/
def limitedMinimaxScore (board : Board) (aiS hS : Mark) :
    Nat → Bool → Int × Board
  | depth, isAiTurn =>
    let rest : Int × Board :=
      if isDraw board then (0, board)
      else
        match depth with
        | 0 => (staticEval board aiS hS, board)
        | d+1 =>
          if isAiTurn then
            lmLoop (fun b' => limitedMinimaxScore b' aiS hS d false) aiS true
              (List.range 9) board (-INF)
          else
            lmLoop (fun b' => limitedMinimaxScore b' aiS hS d true) hS false
              (List.range 9) board INF
    match checkWin board with
    | some w =>
        if w.winner = aiS then (100, board)
        else if w.winner = hS then (-100, board)
        else rest
    | none => rest

/-- Steps 1–2 of `aiDifficultMove`: scan the cells in order, fill an empty
one with `m`, keep it if that completes a line, undo it otherwise. -/
def tryWinLoop (m : Mark) : List Nat → Board → Option Nat × Board
  | [], b => (none, b)
  | i :: rest, b =>
    match b[i]? with
    | some none =>
      let b1 := b.set i (some m)
      if (checkWin b1).isSome then (some i, b1.set i none)
      else tryWinLoop m rest (b1.set i none)
    | _ => tryWinLoop m rest b

/-- Step 4 of `aiDifficultMove`: score each (already empty) corner with a
depth-3 limited search after playing it, undo, keep the strict maximum. -/
def cornerLoop (aiS hS : Mark) : List Nat → Board → Nat → Int → Nat × Board
  | [], b, best, _ => (best, b)
  | c :: rest, b, best, bestScore =>
    let b1 := b.set c (some aiS)
    let p := limitedMinimaxScore b1 aiS hS 3 false
    let b2 := p.2.set c none
    if p.1 > bestScore then cornerLoop aiS hS rest b2 c p.1
    else cornerLoop aiS hS rest b2 best bestScore

/-- `aiDifficultMove(board, aiSymbol)`: win, block, center, scored corner,
random side, then random fallback, in that order. -/
def aiDifficultMove (board : Board) (aiS : Mark) (rnd : Nat) :
    Option Int × Board :=
  let human := if aiS = .X then Mark.O else Mark.X
  match tryWinLoop aiS (List.range 9) board with
  | (some i, b) => (some (i : Int), b)
  | (none, b) =>
    match tryWinLoop human (List.range 9) b with
    | (some i, b2) => (some (i : Int), b2)
    | (none, b2) =>
      if b2[4]? = some none then (some 4, b2)
      else
        let corners := ([0, 2, 6, 8] : List Nat).filter
          fun i => decide (b2[i]? = some none)
        if corners.length > 0 then
          let p := cornerLoop aiS human corners b2 (corners.getD 0 0) (-INF)
          (some (p.1 : Int), p.2)
        else
          let sides := ([1, 3, 5, 7] : List Nat).filter
            fun i => decide (b2[i]? = some none)
          if sides.length > 0 then
            (some ((sides.getD (rnd % sides.length) 0 : Nat) : Int), b2)
          else ((aiRandomMove b2 rnd).map fun n => (n : Int), b2)

/-- The validity check and application tail of `aiMakeMove()`: reject the
strategy's proposal when it is not a number (JS `typeof idx !== 'number'`,
i.e. `null`), negative, above 8, or an occupied cell, falling back to a
random legal move; then apply through `makeMove`.  A `null` fallback (full
board) reaches `makeMove(null, …)` in JS, where `board[null]` is
`undefined`, so `makeMove` rejects it unchanged. -/
def aiApplyChecked (g : Game) (aiSymbol : Mark) (chosen : Option Int) (r2 : Nat) :
    Game × Bool :=
  let idx2 : Option Int :=
    match chosen with
    | none => (aiRandomMove g.board r2).map Int.ofNat
    | some i =>
      if i < 0 ∨ i > 8 ∨ jsAt g.board i ≠ some none then
        (aiRandomMove g.board r2).map Int.ofNat
      else some i
  match idx2 with
  | none => (g, false)
  | some i =>
    let r := makeMove g i aiSymbol
    (r.game, r.scheduledAI)

/-- `aiMakeMove()`: dispatch on the difficulty, then validate and apply via
`aiApplyChecked`.  `r1` feeds the strategy's random draw and `r2` the
fallback's. -/
def aiMakeMove (g : Game) (r1 r2 : Nat) : Game × Bool :=
  if !g.running then (g, false)
  else
    let aiSymbol := if g.playerSymbol = .X then Mark.O else Mark.X
    let level := if g.aiLevel = "" then "easy" else g.aiLevel
    let chosen : Option Int × Board :=
      if level = "easy" then ((aiRandomMove g.board r1).map Int.ofNat, g.board)
      else if level = "difficult" then aiDifficultMove g.board aiSymbol r1
      else (some (aiMinimaxMove g.board aiSymbol r1), g.board)
    aiApplyChecked { g with board := chosen.2 } aiSymbol chosen.1 r2

/-! ### Scheduling model and drivers -/

/-- A session plus the number of not-yet-fired `setTimeout(aiMakeMove, …)`
callbacks.  `setTimeout` contributes `+1`; nothing ever cancels one. -/
structure Sys where
  game : Game
  pending : Nat
deriving Repr

/-- Press Start: run `startGame` and record its scheduled AI opening. -/
def sysStart (s : Sys) (mode level : String) (sym : Mark) : Sys :=
  let p := startGame s.game mode level sym
  { game := p.1, pending := s.pending + (if p.2 then 1 else 0) }

/-- A human click: run `humanMove` and record any scheduled AI reply. -/
def sysHuman (s : Sys) (idx : Int) : Sys :=
  let p := humanMove s.game idx
  { game := p.1, pending := s.pending + (if p.2 then 1 else 0) }

/-- One scheduled `aiMakeMove` callback fires. -/
def sysFire (s : Sys) (r1 r2 : Nat) : Sys :=
  match s.pending with
  | 0 => s
  | p+1 =>
    let q := aiMakeMove s.game r1 r2
    { game := q.1, pending := p + (if q.2 then 1 else 0) }

/-- Modelled from the claim: the Optimal-Strategy self-play driver.  Both
marks choose with `aiMinimaxMove`, starting from `X`, applying each legal
returned index until the board is terminal. -/
def selfPlay : Nat → Board → Mark → Nat → Board
  | 0, b, _, _ => b
  | n+1, b, m, r =>
    if (checkWin b).isSome || isDraw b then b
    else
      let i := aiMinimaxMove b m r
      if 0 ≤ i ∧ i ≤ 8 ∧ b[i.toNat]? = some none then
        selfPlay n (b.set i.toNat (some m)) m.other r
      else b

/-- Modelled from the spec: an unpruned minimax with the same terminal
scoring as `minimax` (`100 − depth` / `−100 + depth` / `0`), maximizing
over the same ascending cell order, with the same fuel discipline as
`minimax`: at `fuel = 10` its stub is unreachable on any 9-cell board, so
it is the spec's full-depth reference there.  Used as the reference value
for the pruning-equivalence claim. -/
def npLoop (next : Board → Int) (m : Mark) (isMax : Bool) :
    List Nat → Board → Int → Int
  | [], _, acc => acc
  | i :: rest, b, acc =>
    match b[i]? with
    | some none =>
      let acc2 := if isMax then max acc (next (b.set i (some m)))
                  else min acc (next (b.set i (some m)))
      npLoop next m isMax rest b acc2
    | _ => npLoop next m isMax rest b acc

/-- Modelled from the spec: root value of the unpruned search. -/
def npScore : Nat → Board → Mark → Mark → Bool → Nat → Int
  | 0, _, _, _, _, _ => 0
  | fuel+1, b, aiS, hS, isAiTurn, depth =>
    let rest : Int :=
      if isDraw b then 0
      else if isAiTurn then
        npLoop (fun b' => npScore fuel b' aiS hS false (depth+1)) aiS true
          (List.range 9) b (-INF)
      else
        npLoop (fun b' => npScore fuel b' aiS hS true (depth+1)) hS false
          (List.range 9) b INF
    match checkWin b with
    | some w =>
        if w.winner = aiS then 100 - (depth : Int)
        else if w.winner = hS then -100 + (depth : Int)
        else rest
    | none => rest

/-! ### Kernel-efficient mirror of the optimal-play search

The self-play claim needs four whole alpha-beta games evaluated inside the
kernel.  The list-based embedding above is faithful but reduces slowly, so
the search is mirrored on a base-3 `Nat` encoding of the board (digit `i`
is cell `i`: 0 empty, 1 X, 2 O), with scores offset by 1000 into `Nat`
(`s ↦ s + 1000`, so the `±1000` infinities become 0 and 2000) and each
`{index, score}` record packed as `(index+1)*10000 + (score+1000)`.  All
arithmetic uses the raw `Nat` operations and recursion uses bare `Nat.rec`
so the kernel evaluates it fast.  The `…_correct` theorems below prove
these mirrors equal to the faithful embedding, which is the only reason
they may be used. -/

/-- Mark code: X is 1, O is 2. -/
def markCode : Mark → Nat
  | .X => 1
  | .O => 2

/-- Cell code: empty is 0. -/
def cellCode : Cell → Nat
  | none => 0
  | some m => markCode m

/-- Base-3 board encoding, digit `i` = cell `i`. -/
def encB : Board → Nat
  | [] => 0
  | c :: rest => cellCode c + 3 * encB rest

/-- Score offset into `Nat`. -/
def encI (s : Int) : Nat := (s + 1000).toNat

/-- Packed `{index, score}` record. -/
def packR (rmm : MMResult) : Nat := ((rmm.index + 1) * 10000 + (rmm.score + 1000)).toNat

/-- Evaluate `v` to a literal before handing it to `k` (so a call-by-name
reduction never duplicates the work of producing `v`). -/
def forceN (v : Nat) (k : Nat → Nat) : Nat :=
  Nat.casesOn v (k 0) (fun p => k (p + 1))

/-- Digit read. -/
def getF (b i : Nat) : Nat := Nat.mod (Nat.div b (Nat.pow 3 i)) 3

/-- Digit write. -/
def setF (b i v : Nat) : Nat :=
  Nat.add (Nat.sub b (Nat.mul (getF b i) (Nat.pow 3 i))) (Nat.mul v (Nat.pow 3 i))

/-- Winner code of one line (0 if not complete). -/
def lineF (b x y z : Nat) : Nat :=
  forceN (getF b x) fun m =>
    cond (Nat.beq m 0) 0
      (cond (Nat.beq (getF b y) m) (cond (Nat.beq (getF b z) m) m 0) 0)

/-- Winner code of the first complete line in scan order (0 if none). -/
def checkWinF (b : Nat) : Nat :=
  forceN (lineF b 0 1 2) fun r => cond (Nat.beq r 0) (
  forceN (lineF b 3 4 5) fun r => cond (Nat.beq r 0) (
  forceN (lineF b 6 7 8) fun r => cond (Nat.beq r 0) (
  forceN (lineF b 0 3 6) fun r => cond (Nat.beq r 0) (
  forceN (lineF b 1 4 7) fun r => cond (Nat.beq r 0) (
  forceN (lineF b 2 5 8) fun r => cond (Nat.beq r 0) (
  forceN (lineF b 0 4 8) fun r => cond (Nat.beq r 0) (
  lineF b 2 4 6) r) r) r) r) r) r) r

/-- All nine digits non-zero. -/
def fullF (b : Nat) : Bool :=
  ((Nat.beq (getF b 0) 0).not.and <|
  ((Nat.beq (getF b 1) 0).not.and <|
  ((Nat.beq (getF b 2) 0).not.and <|
  ((Nat.beq (getF b 3) 0).not.and <|
  ((Nat.beq (getF b 4) 0).not.and <|
  ((Nat.beq (getF b 5) 0).not.and <|
  ((Nat.beq (getF b 6) 0).not.and <|
  ((Nat.beq (getF b 7) 0).not.and <|
   (Nat.beq (getF b 8) 0).not))))))))

/-- Mirror of `isDraw`. -/
def isDrawF (b : Nat) : Bool := (fullF b).and (Nat.beq (checkWinF b) 0)

/-- Mirror of `abMax`: counter `k` counts the remaining cells, visiting
`i = 8 - (k-1)` upward; state is packed. -/
def abMaxF (child : Nat → Nat → Nat) (m : Nat) (k : Nat) : Nat → Nat → Nat → Nat → Nat :=
  Nat.rec (motive := fun _ => Nat → Nat → Nat → Nat → Nat)
    (fun _ best _ _ => best)
    (fun k ihk b best alpha beta =>
      forceN (Nat.sub 8 k) fun i =>
        cond (Nat.beq (getF b i) 0)
          (forceN (child (setF b i m) alpha) fun s =>
            forceN (Nat.mod s 10000) fun sc =>
              forceN (cond (Nat.blt (Nat.mod best 10000) sc)
                       (Nat.add (Nat.mul (Nat.add i 1) 10000) sc) best) fun best2 =>
                forceN (cond (Nat.ble alpha sc) sc alpha) fun alpha2 =>
                  cond (Nat.ble beta alpha2) best2 (ihk b best2 alpha2 beta))
          (ihk b best alpha beta))
    k

/-- Mirror of `abMin`. -/
def abMinF (child : Nat → Nat → Nat) (m : Nat) (k : Nat) : Nat → Nat → Nat → Nat → Nat :=
  Nat.rec (motive := fun _ => Nat → Nat → Nat → Nat → Nat)
    (fun _ best _ _ => best)
    (fun k ihk b best alpha beta =>
      forceN (Nat.sub 8 k) fun i =>
        cond (Nat.beq (getF b i) 0)
          (forceN (child (setF b i m) beta) fun s =>
            forceN (Nat.mod s 10000) fun sc =>
              forceN (cond (Nat.blt sc (Nat.mod best 10000))
                       (Nat.add (Nat.mul (Nat.add i 1) 10000) sc) best) fun best2 =>
                forceN (cond (Nat.ble sc beta) sc beta) fun beta2 =>
                  cond (Nat.ble beta2 alpha) best2 (ihk b best2 alpha beta2))
          (ihk b best alpha beta))
    k

/-- Mirror of `minimax` (the final draw test may use `fullF` alone because
the win code is already known to be 0 at that point). -/
def minimaxF (fuel : Nat) : Nat → Nat → Nat → Bool → Nat → Nat → Nat → Nat :=
  Nat.rec (motive := fun _ => Nat → Nat → Nat → Bool → Nat → Nat → Nat → Nat)
    (fun _ _ _ _ _ _ _ => 1000)
    (fun _ ihf b aiN hN aiT alpha beta depth =>
      forceN (checkWinF b) fun w =>
      cond (Nat.beq w aiN) (Nat.sub 1100 depth) <|
      cond (Nat.beq w hN) (Nat.add 900 depth) <|
      cond (fullF b) 1000 <|
      cond aiT
        (abMaxF (fun b' a' => ihf b' aiN hN false a' beta (Nat.add depth 1)) aiN 9 b 0 alpha beta)
        (abMinF (fun b' b'' => ihf b' aiN hN true alpha b'' (Nat.add depth 1)) hN 9 b 2000 alpha beta))
    fuel

/-- Mirror of the random-corner opening pick `[0,2,6,8][r % 4]`. -/
def cornerOfF (r : Nat) : Nat :=
  Nat.add (Nat.mul 2 (Nat.mod r 4)) (cond (Nat.ble 2 (Nat.mod r 4)) 2 0)

/-- Mirror of `aiMinimaxMove`, returning the chosen index plus one
(so 0 is the `-1` sentinel). -/
def aiMinimaxMoveF (b aiN hN : Nat) (rnd : Nat) : Nat :=
  cond (Nat.beq b 0) (Nat.add (cornerOfF rnd) 1)
    (Nat.div (minimaxF 9 b aiN hN true 0 2000 0) 10000)

/-- Mirror of the self-play driver. -/
def selfPlayF (n : Nat) : Nat → Nat → Nat → Nat → Nat :=
  Nat.rec (motive := fun _ => Nat → Nat → Nat → Nat → Nat)
    (fun b _ _ _ => b)
    (fun _ ihn b mN oN r =>
      cond ((Nat.beq (checkWinF b) 0).not.or (isDrawF b)) b
        (forceN (aiMinimaxMoveF b mN oN r) fun i1 =>
          cond ((Nat.ble 1 i1).and ((Nat.ble i1 9).and (Nat.beq (getF b (Nat.sub i1 1)) 0)))
            (ihn (setF b (Nat.sub i1 1) mN) oN mN r)
            b))
    n


/-! ### Board-restoration (frame) lemmas -/

/-! ### Correctness of the kernel-efficient mirror: encoding lemmas -/

/-- `forceN` is function application. -/
theorem forceN_eq (v : Nat) (k : Nat → Nat) : forceN v k = k v := by
  cases v <;> rfl

/-- Cell codes are base-3 digits. -/
theorem cellCode_lt (c : Cell) : cellCode c < 3 := by
  rcases c with _ | m
  · simp [cellCode]
  · cases m <;> simp [cellCode, markCode]

/-- A cell code vanishes exactly on the empty cell. -/
theorem cellCode_eq_zero {c : Cell} : cellCode c = 0 ↔ c = none := by
  rcases c with _ | m
  · simp [cellCode]
  · cases m <;> simp [cellCode, markCode]

/-- Mark codes are non-zero. -/
theorem markCode_ne_zero (m : Mark) : markCode m ≠ 0 := by
  cases m <;> simp [markCode]

/-- Mark codes are injective. -/
theorem markCode_inj {m m' : Mark} : markCode m = markCode m' ↔ m = m' := by
  cases m <;> cases m' <;> simp [markCode]

/-- `getF` in surface notation. -/
theorem getF_def (b i : Nat) : getF b i = b / 3 ^ i % 3 := rfl

/-- `setF` in surface notation. -/
theorem setF_def (b i v : Nat) : setF b i v = b - getF b i * 3 ^ i + v * 3 ^ i := rfl

/-- The digit contribution never exceeds the whole number. -/
theorem getF_mul_le (e i : Nat) : getF e i * 3 ^ i ≤ e := by
  rw [getF_def]
  exact le_trans (Nat.mul_le_mul_right _ (Nat.mod_le _ _)) (Nat.div_mul_le_self e _)

/-- Digit 0 of a cons encoding. -/
theorem getF_zero (c : Cell) (E : Nat) : getF (cellCode c + 3 * E) 0 = cellCode c := by
  rw [getF_def, pow_zero, Nat.div_one, Nat.add_mul_mod_self_left,
    Nat.mod_eq_of_lt (cellCode_lt c)]

/-- Digit `i+1` of a cons encoding is digit `i` of the tail. -/
theorem getF_succ (c : Cell) (E i : Nat) :
    getF (cellCode c + 3 * E) (i + 1) = getF E i := by
  rw [getF_def, getF_def, pow_succ', ← Nat.div_div_eq_div_mul,
    Nat.add_mul_div_left _ _ (by norm_num : 0 < 3),
    Nat.div_eq_of_lt (cellCode_lt c), Nat.zero_add]

/-- Digit read of an encoded board is the cell code. -/
theorem getF_encB : ∀ (b : Board) (i : Nat), i < b.length →
    getF (encB b) i = cellCode (cellAt b i) := by
  intro b
  induction b with
  | nil => intro i hi; simp at hi
  | cons c rest ih =>
    intro i hi
    cases i with
    | zero =>
      show getF (cellCode c + 3 * encB rest) 0 = cellCode (cellAt (c :: rest) 0)
      rw [getF_zero]
      simp [cellAt]
    | succ j =>
      show getF (cellCode c + 3 * encB rest) (j + 1) = cellCode (cellAt (c :: rest) (j + 1))
      rw [getF_succ, ih j (by simpa using hi)]
      simp [cellAt]

/-- Digit write of an encoded board is the list `set`. -/
theorem setF_encB : ∀ (b : Board) (i : Nat) (c : Cell), i < b.length →
    setF (encB b) i (cellCode c) = encB (b.set i c) := by
  intro b
  induction b with
  | nil => intro i c hi; simp at hi
  | cons c0 rest ih =>
    intro i c hi
    cases i with
    | zero =>
      show setF (cellCode c0 + 3 * encB rest) 0 (cellCode c) = encB (c :: rest)
      rw [setF_def, getF_zero, pow_zero, Nat.mul_one, Nat.mul_one]
      show _ = cellCode c + 3 * encB rest
      omega
    | succ j =>
      show setF (cellCode c0 + 3 * encB rest) (j + 1) (cellCode c) =
        encB (c0 :: rest.set j c)
      rw [setF_def, getF_succ, pow_succ']
      show _ = cellCode c0 + 3 * encB (rest.set j c)
      rw [← ih j c (by simpa using hi), setF_def]
      rw [Nat.mul_left_comm (getF (encB rest) j) 3 (3 ^ j),
        Nat.mul_left_comm (cellCode c) 3 (3 ^ j)]
      have hle := getF_mul_le (encB rest) j
      omega

/-- The encoding vanishes exactly on the all-empty board. -/
theorem encB_eq_zero : ∀ (b : Board), encB b = 0 ↔ b.all (fun c => c = none) = true := by
  intro b
  induction b with
  | nil => simp [encB]
  | cons c rest ih =>
    show cellCode c + 3 * encB rest = 0 ↔ _
    rw [List.all_cons]
    constructor
    · intro h
      have h1 : cellCode c = 0 := by omega
      have h2 : encB rest = 0 := by omega
      simp [cellCode_eq_zero.mp h1, ih.mp h2]
    · intro h
      simp only [Bool.and_eq_true, decide_eq_true_eq] at h
      rw [cellCode_eq_zero.mpr h.1, ih.mpr h.2]

/-- Writing a non-empty digit keeps the encoding non-zero. -/
theorem setF_ne_zero (b i : Nat) {v : Nat} (hv : v ≠ 0) : setF b i v ≠ 0 := by
  rw [setF_def]
  have h3 : 0 < 3 ^ i := Nat.pos_pow_of_pos i (by norm_num)
  have : 0 < v * 3 ^ i := Nat.mul_pos (Nat.pos_of_ne_zero hv) h3
  omega



/-- `Nat.beq` of a mark code with zero is `false`. -/
theorem markCode_beq_zero (m : Mark) : Nat.beq (markCode m) 0 = false := by
  cases m <;> rfl

/-- One line of the fast scanner agrees with `lineWinner`. -/
theorem lineF_encB {b : Board} (hlen : b.length = 9) {x y z : Nat}
    (hx : x < 9) (hy : y < 9) (hz : z < 9) :
    lineF (encB b) x y z =
      (match lineWinner b (x, y, z) with
       | some w => markCode w.winner
       | none => 0) := by
  unfold lineF lineWinner
  rw [forceN_eq, getF_encB b x (by omega), getF_encB b y (by omega),
    getF_encB b z (by omega)]
  dsimp only
  rcases cellAt b x with _ | mx
  · rfl
  · rcases cellAt b y with _ | my
    · cases mx <;> rfl
    · rcases cellAt b z with _ | mz
      · cases mx <;> cases my <;> rfl
      · cases mx <;> cases my <;> cases mz <;> rfl

/-- The fast scanner computes `checkWin`'s winner code. -/
theorem checkWinF_encB {b : Board} (hlen : b.length = 9) :
    checkWinF (encB b) =
      (match checkWin b with
       | some w => markCode w.winner
       | none => 0) := by
  unfold checkWinF checkWin WINNING_LINES
  simp only [findWin, forceN_eq]
  rw [lineF_encB hlen (by norm_num) (by norm_num) (by norm_num)]
  rcases hw0 : lineWinner b (0, 1, 2) with _ | w0
  · simp only [hw0, Nat.beq_refl, cond_true]
    rw [lineF_encB hlen (by norm_num) (by norm_num) (by norm_num)]
    rcases hw1 : lineWinner b (3, 4, 5) with _ | w1
    · simp only [hw1, Nat.beq_refl, cond_true]
      rw [lineF_encB hlen (by norm_num) (by norm_num) (by norm_num)]
      rcases hw2 : lineWinner b (6, 7, 8) with _ | w2
      · simp only [hw2, Nat.beq_refl, cond_true]
        rw [lineF_encB hlen (by norm_num) (by norm_num) (by norm_num)]
        rcases hw3 : lineWinner b (0, 3, 6) with _ | w3
        · simp only [hw3, Nat.beq_refl, cond_true]
          rw [lineF_encB hlen (by norm_num) (by norm_num) (by norm_num)]
          rcases hw4 : lineWinner b (1, 4, 7) with _ | w4
          · simp only [hw4, Nat.beq_refl, cond_true]
            rw [lineF_encB hlen (by norm_num) (by norm_num) (by norm_num)]
            rcases hw5 : lineWinner b (2, 5, 8) with _ | w5
            · simp only [hw5, Nat.beq_refl, cond_true]
              rw [lineF_encB hlen (by norm_num) (by norm_num) (by norm_num)]
              rcases hw6 : lineWinner b (0, 4, 8) with _ | w6
              · simp only [hw6, Nat.beq_refl, cond_true]
                rw [lineF_encB hlen (by norm_num) (by norm_num) (by norm_num)]
                rcases hw7 : lineWinner b (2, 4, 6) with _ | w7 <;> simp [hw7]
              · simp [hw6, markCode_beq_zero]
            · simp [hw5, markCode_beq_zero]
          · simp [hw4, markCode_beq_zero]
        · simp [hw3, markCode_beq_zero]
      · simp [hw2, markCode_beq_zero]
    · simp [hw1, markCode_beq_zero]
  · simp [hw0, markCode_beq_zero]

/-- A length-9 list is nine explicit cells. -/
theorem board9 (b : Board) (h : b.length = 9) :
    ∃ c0 c1 c2 c3 c4 c5 c6 c7 c8 : Cell,
      b = [c0, c1, c2, c3, c4, c5, c6, c7, c8] := by
  rcases b with _ | ⟨c0, b⟩
  · simp at h
  rcases b with _ | ⟨c1, b⟩
  · simp at h
  rcases b with _ | ⟨c2, b⟩
  · simp at h
  rcases b with _ | ⟨c3, b⟩
  · simp at h
  rcases b with _ | ⟨c4, b⟩
  · simp at h
  rcases b with _ | ⟨c5, b⟩
  · simp at h
  rcases b with _ | ⟨c6, b⟩
  · simp at h
  rcases b with _ | ⟨c7, b⟩
  · simp at h
  rcases b with _ | ⟨c8, b⟩
  · simp at h
  rcases b with _ | ⟨c9, b⟩
  · exact ⟨c0, c1, c2, c3, c4, c5, c6, c7, c8, rfl⟩
  · simp at h

/-- Negated zero-test of a cell code is `isSome`. -/
theorem cellCode_beq_not (c : Cell) : (Nat.beq (cellCode c) 0).not = c.isSome := by
  rcases c with _ | m
  · rfl
  · cases m <;> rfl

/-- The fast all-digits-filled test computes `List.all isSome`. -/
theorem fullF_encB {b : Board} (hlen : b.length = 9) :
    fullF (encB b) = b.all (fun c => c.isSome) := by
  obtain ⟨c0, c1, c2, c3, c4, c5, c6, c7, c8, rfl⟩ := board9 b hlen
  unfold fullF
  rw [getF_encB _ 0 (by simp), getF_encB _ 1 (by simp), getF_encB _ 2 (by simp),
    getF_encB _ 3 (by simp), getF_encB _ 4 (by simp), getF_encB _ 5 (by simp),
    getF_encB _ 6 (by simp), getF_encB _ 7 (by simp), getF_encB _ 8 (by simp)]
  simp only [cellAt, List.getElem?_cons_zero, List.getElem?_cons_succ, Option.getD_some]
  rw [cellCode_beq_not, cellCode_beq_not, cellCode_beq_not, cellCode_beq_not,
    cellCode_beq_not, cellCode_beq_not, cellCode_beq_not, cellCode_beq_not,
    cellCode_beq_not]
  simp [List.all, Bool.and_assoc]

/-- Writing back the value a cell already holds leaves the list unchanged. -/
theorem set_get?_self {b : Board} {i : Nat} (h : b[i]? = some none) :
    b.set i none = b := by
  induction b generalizing i with
  | nil => rfl
  | cons c rest ih =>
    cases i with
    | zero => simp_all [List.get?, List.set]
    | succ j => simp_all [List.get?, List.set]

/-- The mutate-then-undo pattern of the search loops is the identity. -/
theorem set_set_none {b : Board} {i : Nat} (m : Mark) (h : b[i]? = some none) :
    (b.set i (some m)).set i none = b := by
  rw [List.set_set, set_get?_self h]

/-- `abMax` hands back exactly the board it was given, provided each
recursive call does. -/
theorem abMax_board {next : Board → Int → MMResult × Board} {m : Mark}
    (hn : ∀ x a, (next x a).2 = x) :
    ∀ (l : List Nat) (b : Board) (best : MMResult) (alpha beta : Int),
      (abMax next m l b best alpha beta).2 = b := by
  intro l
  induction l with
  | nil => intro b best alpha beta; rfl
  | cons i rest ih =>
    intro b best alpha beta
    rcases hc : b[i]? with _ | (_ | mv)
    · simp [abMax, hc, ih]
    · have hrestore : ((next (b.set i (some m)) alpha).2).set i none = b := by
        rw [hn, set_set_none _ hc]
      simp only [abMax, hc]
      split
      · simpa using hrestore
      · rw [ih]; exact hrestore
    · simp [abMax, hc, ih]

/-- `abMin` hands back exactly the board it was given, provided each
recursive call does. -/
theorem abMin_board {next : Board → Int → MMResult × Board} {m : Mark}
    (hn : ∀ x a, (next x a).2 = x) :
    ∀ (l : List Nat) (b : Board) (best : MMResult) (alpha beta : Int),
      (abMin next m l b best alpha beta).2 = b := by
  intro l
  induction l with
  | nil => intro b best alpha beta; rfl
  | cons i rest ih =>
    intro b best alpha beta
    rcases hc : b[i]? with _ | (_ | mv)
    · simp [abMin, hc, ih]
    · have hrestore : ((next (b.set i (some m)) beta).2).set i none = b := by
        rw [hn, set_set_none _ hc]
      simp only [abMin, hc]
      split
      · simpa using hrestore
      · rw [ih]; exact hrestore
    · simp [abMin, hc, ih]

/-- Every cell `minimax` writes during search is restored before it
returns: the board component of its result is its input board. -/
theorem minimax_board :
    ∀ (fuel : Nat) (b : Board) (aiS hS : Mark) (t : Bool) (alpha beta : Int)
      (depth : Nat), (minimax fuel b aiS hS t alpha beta depth).2 = b := by
  intro fuel
  induction fuel with
  | zero => intro b aiS hS t alpha beta depth; rfl
  | succ fuel ih =>
    intro b aiS hS t alpha beta depth
    show (minimax (fuel+1) b aiS hS t alpha beta depth).2 = b
    have hrest :
        (if isDraw b then ((⟨-1, 0⟩ : MMResult), b)
         else if t then
           abMax (fun b' a' => minimax fuel b' aiS hS false a' beta (depth+1)) aiS
             (List.range 9) b ⟨-1, -INF⟩ alpha beta
         else
           abMin (fun b' b'' => minimax fuel b' aiS hS true alpha b'' (depth+1)) hS
             (List.range 9) b ⟨-1, INF⟩ alpha beta).2 = b := by
      split
      · rfl
      · split
        · exact abMax_board (fun x a => ih x aiS hS false a beta (depth+1)) _ _ _ _ _
        · exact abMin_board (fun x a => ih x aiS hS true alpha a (depth+1)) _ _ _ _ _
    show (match checkWin b with
      | some w =>
          if w.winner = aiS then ((⟨-1, 100 - (depth : Int)⟩ : MMResult), b)
          else if w.winner = hS then ((⟨-1, -100 + (depth : Int)⟩ : MMResult), b)
          else _
      | none => _).2 = b
    rcases checkWin b with _ | w
    · exact hrest
    · dsimp only
      split
      · rfl
      · split
        · rfl
        · exact hrest

/-- `lmLoop` hands back exactly the board it was given, provided each
recursive call does. -/
theorem lmLoop_board {next : Board → Int × Board} {m : Mark} {isMax : Bool}
    (hn : ∀ x, (next x).2 = x) :
    ∀ (l : List Nat) (b : Board) (best : Int),
      (lmLoop next m isMax l b best).2 = b := by
  intro l
  induction l with
  | nil => intro b best; rfl
  | cons i rest ih =>
    intro b best
    rcases hc : b[i]? with _ | (_ | mv)
    · simp [lmLoop, hc, ih]
    · simp only [lmLoop, hc]
      rw [ih, hn, set_set_none _ hc]
    · simp [lmLoop, hc, ih]

/-- `limitedMinimaxScore` restores the board it searches. -/
theorem limitedMinimaxScore_board :
    ∀ (depth : Nat) (b : Board) (aiS hS : Mark) (t : Bool),
      (limitedMinimaxScore b aiS hS depth t).2 = b := by
  intro depth
  induction depth with
  | zero =>
    intro b aiS hS t
    show (match checkWin b with
      | some w => if w.winner = aiS then ((100 : Int), b)
                  else if w.winner = hS then ((-100 : Int), b) else _
      | none => _).2 = b
    rcases checkWin b with _ | w
    · dsimp only; split <;> rfl
    · dsimp only
      split
      · rfl
      · split
        · rfl
        · split <;> rfl
  | succ d ih =>
    intro b aiS hS t
    have hrest :
        (if isDraw b then ((0 : Int), b)
         else if t then
           lmLoop (fun b' => limitedMinimaxScore b' aiS hS d false) aiS true
             (List.range 9) b (-INF)
         else
           lmLoop (fun b' => limitedMinimaxScore b' aiS hS d true) hS false
             (List.range 9) b INF).2 = b := by
      split
      · rfl
      · split
        · exact lmLoop_board (fun x => ih x aiS hS false) _ _ _
        · exact lmLoop_board (fun x => ih x aiS hS true) _ _ _
    show (match checkWin b with
      | some w => if w.winner = aiS then ((100 : Int), b)
                  else if w.winner = hS then ((-100 : Int), b) else _
      | none => _).2 = b
    rcases checkWin b with _ | w
    · exact hrest
    · dsimp only
      split
      · rfl
      · split
        · rfl
        · exact hrest

/-- `tryWinLoop` restores every probe before answering. -/
theorem tryWinLoop_board (m : Mark) :
    ∀ (l : List Nat) (b : Board), (tryWinLoop m l b).2 = b := by
  intro l
  induction l with
  | nil => intro b; rfl
  | cons i rest ih =>
    intro b
    rcases hc : b[i]? with _ | (_ | mv)
    · simp [tryWinLoop, hc, ih]
    · simp only [tryWinLoop, hc]
      split
      · simpa using set_set_none m hc
      · rw [ih, set_set_none m hc]
    · simp [tryWinLoop, hc, ih]

/-- `cornerLoop` restores every probe, given that the corners it is fed are
empty on the board it is fed. -/
theorem cornerLoop_board {aiS hS : Mark} :
    ∀ (l : List Nat) (b : Board), (∀ c ∈ l, b[c]? = some none) →
      ∀ (best : Nat) (bestScore : Int),
        (cornerLoop aiS hS l b best bestScore).2 = b := by
  intro l
  induction l with
  | nil => intro b _ best bestScore; rfl
  | cons c rest ih =>
    intro b hl best bestScore
    have hc : b[c]? = some none := hl c (by simp)
    have hrest : ∀ x ∈ rest, b[x]? = some none := fun x hx => hl x (by simp [hx])
    have hrestore :
        ((limitedMinimaxScore (b.set c (some aiS)) aiS hS 3 false).2).set c none = b := by
      rw [limitedMinimaxScore_board, set_set_none _ hc]
    simp only [cornerLoop]
    split
    · rw [ih _ (by rw [hrestore]; exact hrest)]; exact hrestore
    · rw [ih _ (by rw [hrestore]; exact hrest)]; exact hrestore

/-- `aiDifficultMove` returns the caller's board unchanged. -/
theorem aiDifficultMove_board (b : Board) (aiS : Mark) (r : Nat) :
    (aiDifficultMove b aiS r).2 = b := by
  have h1 := tryWinLoop_board aiS (List.range 9) b
  have h2 := tryWinLoop_board (if aiS = .X then Mark.O else Mark.X) (List.range 9) b
  unfold aiDifficultMove
  generalize e1 : tryWinLoop aiS (List.range 9) b = p1 at h1 ⊢
  rcases p1 with ⟨i1, b1⟩
  dsimp only at h1
  rw [h1]
  rcases i1 with _ | i1
  · dsimp only
    generalize e2 : tryWinLoop (if aiS = .X then Mark.O else Mark.X) (List.range 9) b = p2 at h2 ⊢
    rcases p2 with ⟨i2, b2⟩
    dsimp only at h2
    rw [h2]
    rcases i2 with _ | i2
    · by_cases h4 : b[4]? = some none
      · simp [h4]
      · by_cases hc : 0 < (([0,2,6,8] : List Nat).filter fun i => decide (b[i]? = some none)).length
        · have hcorners : ∀ c ∈ ([0,2,6,8] : List Nat).filter (fun i => decide (b[i]? = some none)),
              b[c]? = some none := by
            intro c hcmem
            simp only [List.mem_filter, decide_eq_true_eq] at hcmem
            exact hcmem.2
          simp [h4, hc, cornerLoop_board _ _ hcorners]
        · by_cases hs : 0 < (([1,3,5,7] : List Nat).filter fun i => decide (b[i]? = some none)).length
          · simp [h4, hc, hs]
          · simp [h4, hc, hs]
    · rfl
  · rfl

/-! ### Find-first characterization of the win/block scans (for C5) -/

/-- `tryWinLoop` computes `List.find?` of "placing `m` here completes a
line" over the empty cells, restoring the board as it goes. -/
theorem tryWinLoop_eq_find (m : Mark) :
    ∀ (l : List Nat) (b : Board),
      tryWinLoop m l b =
        (l.find? (fun i => decide (b[i]? = some none) &&
           (checkWin (b.set i (some m))).isSome), b) := by
  intro l
  induction l with
  | nil => intro b; rfl
  | cons i rest ih =>
    intro b
    rcases hc : b[i]? with _ | (_ | mv)
    · simp [tryWinLoop, List.find?, hc, ih]
    · simp only [tryWinLoop, hc, List.find?, decide_eq_true_eq, set_set_none m hc]
      rcases hw : (checkWin (b.set i (some m))).isSome with _ | _
      · simpa [hc, hw] using ih b
      · simp [hc, hw]
    · simp [tryWinLoop, List.find?, hc, ih]

/-- A successful `find?` over `range' s n` returns the least index
satisfying the predicate, with nothing below it matching. -/
theorem find?_range'_first {p : Nat → Bool} :
    ∀ (n s i : Nat), (List.range' s n).find? p = some i →
      s ≤ i ∧ i < s + n ∧ p i = true ∧ ∀ j, s ≤ j → j < i → p j = false := by
  intro n
  induction n with
  | zero => intro s i h; simp [List.range'] at h
  | succ n ih =>
    intro s i h
    rw [List.range'_succ] at h
    rcases hp : p s with _ | _
    · rw [List.find?_cons_of_neg _ (by simp [hp])] at h
      obtain ⟨h1, h2, h3, h4⟩ := ih (s+1) i h
      refine ⟨by omega, by omega, h3, ?_⟩
      intro j hj1 hj2
      rcases Nat.eq_or_lt_of_le hj1 with rfl | hgt
      · exact hp
      · exact h4 j hgt hj2
    · rw [List.find?_cons_of_pos _ (by simp [hp])] at h
      obtain rfl : s = i := by simpa using h
      exact ⟨le_rfl, by omega, hp, fun j hj1 hj2 => absurd hj1 (by omega)⟩

/-! ### Claim C7: the searches leave the board unchanged -/

/-- C7: every AI search routine (`aiDifficultMove`, `limitedMinimaxScore`,
`minimax`) returns the board it was handed: each temporary write during
search is undone before the call returns, cell for cell. -/
theorem C7_search_restores_board :
    (∀ (fuel : Nat) (b : Board) (aiS hS : Mark) (t : Bool) (alpha beta : Int)
       (depth : Nat), (minimax fuel b aiS hS t alpha beta depth).2 = b) ∧
    (∀ (b : Board) (aiS hS : Mark) (depth : Nat) (t : Bool),
       (limitedMinimaxScore b aiS hS depth t).2 = b) ∧
    (∀ (b : Board) (aiS : Mark) (r : Nat), (aiDifficultMove b aiS r).2 = b) :=
  ⟨minimax_board,
   fun b aiS hS depth t => limitedMinimaxScore_board depth b aiS hS t,
   aiDifficultMove_board⟩

/-! ### Claim C4: move rejection leaves the session unchanged -/

/-- C4: `humanMove`/`makeMove` reject — leaving the whole session state
(board, current player, running flag, scores) unchanged and scheduling
nothing — when the game is not running, the index is outside 0–8, the cell
is occupied, or (in PvC) it is not the acting human's turn. -/
theorem C4_reject_no_mutation (g : Game) (idx : Int) (m : Mark)
    (hlen : g.board.length = 9)
    (h : g.running = false ∨ idx < 0 ∨ 8 < idx ∨ jsAt g.board idx ≠ some none ∨
         (g.mode = "pvc" ∧ g.currentPlayer ≠ g.playerSymbol)) :
    humanMove g idx = (g, false) ∧
    (jsAt g.board idx ≠ some none → makeMove g idx m = ⟨g, false, false⟩) := by
  constructor
  · by_cases hr : g.running = true
    · by_cases hocc : jsAt g.board idx = some none
      · have hmode : g.mode = "pvc" ∧ g.currentPlayer ≠ g.playerSymbol := by
          rcases h with h | h | h | h | h
          · rw [hr] at h; cases h
          · exact absurd hocc (by simp [jsAt, h])
          · have hge : g.board.length ≤ idx.toNat := by omega
            exact absurd hocc
              (by simp [jsAt, show ¬ idx < 0 by omega, List.getElem?_eq_none hge])
          · exact absurd hocc h
          · exact h
        simp [humanMove, hr, hocc, hmode.1, hmode.2]
      · simp [humanMove, hr, hocc]
    · have hr' : g.running = false := by simpa using hr
      simp [humanMove, hr']
  · intro hocc
    simp [makeMove, hocc]

/-- Witness for C4 at a concrete rejected move: the initial session is not
running, so submitting index 0 changes nothing. -/
theorem C4_reject_no_mutation_witness :
    initialGame.board.length = 9 ∧
    (initialGame.running = false ∨ (0 : Int) < 0 ∨ 8 < (0 : Int) ∨
      jsAt initialGame.board 0 ≠ some none ∨
      (initialGame.mode = "pvc" ∧ initialGame.currentPlayer ≠ initialGame.playerSymbol)) ∧
    (humanMove initialGame 0 = (initialGame, false) ∧
     (jsAt initialGame.board 0 ≠ some none →
        makeMove initialGame 0 .X = ⟨initialGame, false, false⟩)) :=
  ⟨by decide, by decide,
   C4_reject_no_mutation initialGame 0 .X (by decide) (by decide)⟩

/-! ### Claim C9: startGame accepts any configuration strings -/

/-- C9 counterexample: `startGame` performs no validation.  Called on an
idle session with unrecognized mode and difficulty strings it does not
fail; it creates fresh game state (running flips to `true`, the board is
reset, the bogus strings are stored verbatim). -/
theorem C9_no_validation_counterexample :
    initialGame.running = false ∧
    (startGame initialGame "bogus-mode" "bogus-level" .X).1.running = true ∧
    (startGame initialGame "bogus-mode" "bogus-level" .X).1.mode = "bogus-mode" ∧
    (startGame initialGame "bogus-mode" "bogus-level" .X).1.aiLevel = "bogus-level" ∧
    (startGame initialGame "bogus-mode" "bogus-level" .X).1.board = List.replicate 9 none := by
  refine ⟨rfl, rfl, rfl, rfl, rfl⟩

/-- C9 amended: `startGame` never fails and never rejects a configuration:
for every mode and difficulty string — recognized or not — it resets the
session to a fresh running game (empty board, X to move) and stores the
strings as given. -/
theorem C9_start_never_fails (g : Game) (mode level : String) (sym : Mark) :
    (startGame g mode level sym).1 =
      { g with board := List.replicate 9 none, running := true,
               winningLine := none, lastMoveIndex := none,
               mode := mode, aiLevel := level, playerSymbol := sym,
               currentPlayer := .X } := rfl

/-! ### Claim C8: a stale scheduled AI move survives a reset -/

/-- C8 failing trace: start a PvC difficult game as X, play cell 0 (this
schedules an AI reply), press Start again before the callback fires (the
fresh board is empty and the callback is still pending), then let the stale
callback fire: `aiMakeMove` only checks `running`, which the reset set back
to `true`, so the stale move is applied to the new game's board — O is
written into cell 4 even though it is X's turn on a fresh board. -/
theorem C8_stale_ai_move_applied :
    (sysStart (sysHuman (sysStart ⟨initialGame, 0⟩ "pvc" "difficult" .X) 0)
        "pvc" "difficult" .X).pending = 1 ∧
    (sysStart (sysHuman (sysStart ⟨initialGame, 0⟩ "pvc" "difficult" .X) 0)
        "pvc" "difficult" .X).game.board = List.replicate 9 none ∧
    (sysFire (sysStart (sysHuman (sysStart ⟨initialGame, 0⟩ "pvc" "difficult" .X) 0)
        "pvc" "difficult" .X) 0 0).game.board =
      (List.replicate 9 none).set 4 (some .O) := by
  refine ⟨by decide, by decide, by decide⟩


/-! ### Claim C5: the heuristic takes wins and blocks -/

/-- C5: `aiDifficultMove` plays the first empty cell that completes a line
for its own mark whenever one exists; failing that, it occupies the first
empty cell that would complete a line for the opponent whenever one exists;
in particular it answers 2 on `[X,X,_,O,O,_,_,_,_]` (take the win) and 2 on
`[O,O,_,_,X,_,_,_,_]` (block the row) for AI mark X. -/
theorem C5_heuristic_win_and_block :
    (∀ (b : Board) (aiS : Mark) (r : Nat),
      (∃ i ∈ List.range 9, b[i]? = some none ∧
         (checkWin (b.set i (some aiS))).isSome) →
      ∃ i : Nat, i < 9 ∧ b[i]? = some none ∧
        (checkWin (b.set i (some aiS))).isSome ∧
        (∀ j, j < i → ¬ (b[j]? = some none ∧
           (checkWin (b.set j (some aiS))).isSome)) ∧
        (aiDifficultMove b aiS r).1 = some (i : Int)) ∧
    (∀ (b : Board) (aiS : Mark) (r : Nat),
      (∀ i ∈ List.range 9, ¬ (b[i]? = some none ∧
         (checkWin (b.set i (some aiS))).isSome)) →
      (∃ i ∈ List.range 9, b[i]? = some none ∧
         (checkWin (b.set i (some (if aiS = .X then Mark.O else Mark.X)))).isSome) →
      ∃ i : Nat, i < 9 ∧ b[i]? = some none ∧
        (checkWin (b.set i (some (if aiS = .X then Mark.O else Mark.X)))).isSome ∧
        (∀ j, j < i → ¬ (b[j]? = some none ∧
           (checkWin (b.set j (some (if aiS = .X then Mark.O else Mark.X)))).isSome)) ∧
        (aiDifficultMove b aiS r).1 = some (i : Int)) ∧
    (∀ r : Nat, (aiDifficultMove
        [some .X, some .X, none, some .O, some .O, none, none, none, none] .X r).1 =
        some 2) ∧
    (∀ r : Nat, (aiDifficultMove
        [some .O, some .O, none, none, some .X, none, none, none, none] .X r).1 =
        some 2) := by
  refine ⟨?_, ?_, fun r => rfl, fun r => rfl⟩
  · intro b aiS r hex
    have hne : (List.range 9).find? (fun i => decide (b[i]? = some none) &&
        (checkWin (b.set i (some aiS))).isSome) ≠ none := by
      intro hnone
      rw [List.find?_eq_none] at hnone
      obtain ⟨i, hi, h1, h2⟩ := hex
      exact (hnone i hi) (by simp [h1, h2])
    obtain ⟨i, hfind⟩ := Option.ne_none_iff_exists'.mp hne
    have hchar := find?_range'_first 9 0 i
      (by rw [← List.range_eq_range']; exact hfind)
    obtain ⟨-, hlt, hpi, hbelow⟩ := hchar
    simp only [Bool.and_eq_true, decide_eq_true_eq] at hpi
    refine ⟨i, by omega, hpi.1, hpi.2, ?_, ?_⟩
    · rintro j hj ⟨hj1, hj2⟩
      have := hbelow j (Nat.zero_le j) hj
      simp [hj1, hj2] at this
    · unfold aiDifficultMove
      rw [tryWinLoop_eq_find aiS (List.range 9) b, hfind]
  · intro b aiS r hnone hex
    have hfst : (List.range 9).find? (fun i => decide (b[i]? = some none) &&
        (checkWin (b.set i (some aiS))).isSome) = none := by
      rw [List.find?_eq_none]
      intro i hi hpi
      simp only [Bool.and_eq_true, decide_eq_true_eq] at hpi
      exact hnone i hi hpi
    have hne : (List.range 9).find? (fun i => decide (b[i]? = some none) &&
        (checkWin (b.set i (some (if aiS = .X then Mark.O else Mark.X)))).isSome) ≠ none := by
      intro hn
      rw [List.find?_eq_none] at hn
      obtain ⟨i, hi, h1, h2⟩ := hex
      exact (hn i hi) (by simp [h1, h2])
    obtain ⟨i, hfind⟩ := Option.ne_none_iff_exists'.mp hne
    have hchar := find?_range'_first 9 0 i
      (by rw [← List.range_eq_range']; exact hfind)
    obtain ⟨-, hlt, hpi, hbelow⟩ := hchar
    simp only [Bool.and_eq_true, decide_eq_true_eq] at hpi
    refine ⟨i, by omega, hpi.1, hpi.2, ?_, ?_⟩
    · rintro j hj ⟨hj1, hj2⟩
      have := hbelow j (Nat.zero_le j) hj
      simp [hj1, hj2] at this
    · unfold aiDifficultMove
      rw [tryWinLoop_eq_find aiS (List.range 9) b, hfst]
      dsimp only
      rw [tryWinLoop_eq_find (if aiS = .X then Mark.O else Mark.X) (List.range 9) b, hfind]

/-- Witness for C5 applying the take-the-win part on the concrete board
`[X,X,_,O,O,_,_,_,_]` with AI mark X. -/
theorem C5_heuristic_win_and_block_witness :
    (∃ i ∈ List.range 9,
       ([some .X, some .X, none, some .O, some .O, none, none, none, none] :
          Board)[i]? = some none ∧
       (checkWin (([some .X, some .X, none, some .O, some .O, none, none, none, none] :
          Board).set i (some .X))).isSome) ∧
    (∃ i : Nat, i < 9 ∧
       ([some .X, some .X, none, some .O, some .O, none, none, none, none] :
          Board)[i]? = some none ∧
       (checkWin (([some .X, some .X, none, some .O, some .O, none, none, none, none] :
          Board).set i (some .X))).isSome ∧
       (∀ j, j < i → ¬ (([some .X, some .X, none, some .O, some .O, none, none, none, none] :
          Board)[j]? = some none ∧
          (checkWin (([some .X, some .X, none, some .O, some .O, none, none, none, none] :
             Board).set j (some .X))).isSome)) ∧
       (aiDifficultMove
          [some .X, some .X, none, some .O, some .O, none, none, none, none] .X 0).1 =
          some (i : Int)) :=
  ⟨by decide,
   C5_heuristic_win_and_block.1
     [some .X, some .X, none, some .O, some .O, none, none, none, none] .X 0 (by decide)⟩



/-! ### Claim C6: the selector always applies a legal move -/

/-- When `makeMove`'s occupancy test passes, the resulting board is the old
board with the mark written at the index (whatever else the move does). -/
theorem makeMove_sets_board {g : Game} {idx : Int} {m : Mark}
    (h : jsAt g.board idx = some none) :
    (makeMove g idx m).game.board = g.board.set idx.toNat (some m) := by
  unfold makeMove
  rw [if_neg (by simp [h])]
  dsimp only
  split
  · rfl
  · split <;> rfl

/-- `aiRandomMove` on a board with an empty cell returns the index of an
empty cell. -/
theorem aiRandomMove_legal (b : Board) (r : Nat)
    (hempty : ∃ i : Nat, b[i]? = some none) :
    ∃ e : Nat, aiRandomMove b r = some e ∧ e < b.length ∧ b[e]? = some none := by
  obtain ⟨i, hinone⟩ := hempty
  have hmem : (i, (none : Cell)) ∈ b.enum := List.mk_mem_enum_iff_getElem?.mpr hinone
  have hm : i ∈ b.enum.filterMap fun p => if p.2 = none then some p.1 else none := by
    rw [List.mem_filterMap]
    exact ⟨(i, none), hmem, by simp⟩
  have hlen : 0 < (b.enum.filterMap fun p => if p.2 = none then some p.1 else none).length :=
    List.length_pos.mpr (List.ne_nil_of_mem hm)
  have hmod : r % (b.enum.filterMap fun p => if p.2 = none then some p.1 else none).length <
      (b.enum.filterMap fun p => if p.2 = none then some p.1 else none).length :=
    Nat.mod_lt _ hlen
  have hgmem : (b.enum.filterMap fun p => if p.2 = none then some p.1 else none).getD
      (r % (b.enum.filterMap fun p => if p.2 = none then some p.1 else none).length) 0 ∈
      (b.enum.filterMap fun p => if p.2 = none then some p.1 else none) := by
    rw [List.getD_eq_getElem?_getD, List.getElem?_eq_getElem hmod]
    exact List.getElem_mem hmod
  rw [List.mem_filterMap] at hgmem
  obtain ⟨⟨j, c⟩, hjc, hf⟩ := hgmem
  have hc : c = none := by
    by_contra hne
    simp [hne] at hf
  subst hc
  have hf' : j = (b.enum.filterMap fun p => if p.2 = none then some p.1 else none).getD
      (r % (b.enum.filterMap fun p => if p.2 = none then some p.1 else none).length) 0 := by
    simpa using hf
  rw [List.mk_mem_enum_iff_getElem?] at hjc
  refine ⟨(b.enum.filterMap fun p => if p.2 = none then some p.1 else none).getD
      (r % (b.enum.filterMap fun p => if p.2 = none then some p.1 else none).length) 0, ?_, ?_, ?_⟩
  · unfold aiRandomMove
    rw [if_neg (by omega)]
  · rw [← hf']
    exact (List.getElem?_eq_some_iff.mp hjc).choose
  · rw [← hf']; exact hjc

/-- The check-and-apply tail always writes the AI's mark into an in-range
empty cell, whatever index the strategy proposed. -/
theorem aiApplyChecked_legal (g : Game) (aiSym : Mark) (copt : Option Int) (r2 : Nat)
    (hlen : g.board.length = 9) (hempty : ∃ i : Nat, g.board[i]? = some none) :
    ∃ i : Nat, i < 9 ∧ g.board[i]? = some none ∧
      (aiApplyChecked g aiSym copt r2).1.board = g.board.set i (some aiSym) := by
  unfold aiApplyChecked
  rcases copt with _ | i
  · dsimp only
    obtain ⟨e, he, helt, hee⟩ := aiRandomMove_legal g.board r2 hempty
    rw [he]
    simp only [Option.map_some']
    refine ⟨e, by omega, hee, ?_⟩
    rw [makeMove_sets_board (by simp [jsAt, hee])]
    simp
  · dsimp only
    by_cases hval : i < 0 ∨ i > 8 ∨ jsAt g.board i ≠ some none
    · rw [if_pos hval]
      obtain ⟨e, he, helt, hee⟩ := aiRandomMove_legal g.board r2 hempty
      rw [he]
      simp only [Option.map_some']
      refine ⟨e, by omega, hee, ?_⟩
      rw [makeMove_sets_board (by simp [jsAt, hee])]
      simp
    · rw [if_neg hval]
      push_neg at hval
      obtain ⟨h0, h8, hocc⟩ := hval
      have hocc' : g.board[i.toNat]? = some none := by
        rw [jsAt, if_neg (by omega)] at hocc
        exact hocc
      refine ⟨i.toNat, by omega, hocc', ?_⟩
      rw [makeMove_sets_board hocc]

/-- C6: for every running session whose 9-cell board has an empty cell,
every difficulty string, and all random draws, `aiMakeMove` applies a move
at an in-range, currently-empty index (through the validity check and the
random fallback); being a total function it never raises. -/
theorem C6_selector_applies_legal_move (g : Game) (r1 r2 : Nat)
    (hlen : g.board.length = 9) (hrun : g.running = true)
    (hempty : ∃ i : Nat, g.board[i]? = some none) :
    ∃ i : Nat, i < 9 ∧ g.board[i]? = some none ∧
      (aiMakeMove g r1 r2).1.board =
        g.board.set i (some (if g.playerSymbol = .X then Mark.O else Mark.X)) := by
  unfold aiMakeMove
  rw [if_neg (by simp [hrun])]
  dsimp only
  have hb2 : (if (if g.aiLevel = "" then "easy" else g.aiLevel) = "easy" then
      ((aiRandomMove g.board r1).map Int.ofNat, g.board)
    else if (if g.aiLevel = "" then "easy" else g.aiLevel) = "difficult" then
      aiDifficultMove g.board (if g.playerSymbol = .X then Mark.O else Mark.X) r1
    else (some (aiMinimaxMove g.board (if g.playerSymbol = .X then Mark.O else Mark.X) r1),
      g.board)).2 = g.board := by
    by_cases h0 : g.aiLevel = ""
    · simp [h0]
    · by_cases h1 : g.aiLevel = "easy"
      · simp [h0, h1]
      · by_cases h2 : g.aiLevel = "difficult"
        · simp [h0, h1, h2, aiDifficultMove_board]
        · simp [h0, h1, h2]
  rw [hb2]
  exact aiApplyChecked_legal g _ _ r2 hlen hempty

/-- Witness for C6: a running easy-level session with one empty cell. -/
theorem C6_selector_applies_legal_move_witness :
    (Game.mk [some .X, some .O, some .X, some .O, some .X, some .O, some .X, some .O, none]
        .X true "pvp" "easy" .X ⟨0, 0, 0⟩ none none).board.length = 9 ∧
    (Game.mk [some .X, some .O, some .X, some .O, some .X, some .O, some .X, some .O, none]
        .X true "pvp" "easy" .X ⟨0, 0, 0⟩ none none).running = true ∧
    (∃ i : Nat, (Game.mk [some .X, some .O, some .X, some .O, some .X, some .O, some .X,
        some .O, none] .X true "pvp" "easy" .X ⟨0, 0, 0⟩ none none).board[i]? = some none) ∧
    (∃ i : Nat, i < 9 ∧
      (Game.mk [some .X, some .O, some .X, some .O, some .X, some .O, some .X, some .O, none]
          .X true "pvp" "easy" .X ⟨0, 0, 0⟩ none none).board[i]? = some none ∧
      (aiMakeMove (Game.mk [some .X, some .O, some .X, some .O, some .X, some .O, some .X,
          some .O, none] .X true "pvp" "easy" .X ⟨0, 0, 0⟩ none none) 0 0).1.board =
        (Game.mk [some .X, some .O, some .X, some .O, some .X, some .O, some .X, some .O, none]
            .X true "pvp" "easy" .X ⟨0, 0, 0⟩ none none).board.set i
          (some (if (Game.mk [some .X, some .O, some .X, some .O, some .X, some .O, some .X,
              some .O, none] .X true "pvp" "easy" .X ⟨0, 0, 0⟩ none none).playerSymbol = .X
            then Mark.O else Mark.X))) :=
  ⟨by decide, by decide, ⟨8, by decide⟩,
   C6_selector_applies_legal_move _ 0 0 (by decide) (by decide) ⟨8, by decide⟩⟩


/-! ### Claim C2: the evaluate classification -/

/-- A line-winner record exists exactly when the three cells hold the
record's winner and the record names that line. -/
theorem lineWinner_some_iff {b : Board} {l : Line} {w : WinInfo} :
    lineWinner b l = some w ↔
      w.line = l ∧ cellAt b l.1 = some w.winner ∧ cellAt b l.2.1 = some w.winner ∧
        cellAt b l.2.2 = some w.winner := by
  unfold lineWinner
  rcases hc : cellAt b l.1 with _ | m
  · simp
  · dsimp only
    by_cases h : cellAt b l.2.1 = some m ∧ cellAt b l.2.2 = some m
    · rw [if_pos h]
      constructor
      · rintro h'
        injection h' with h'
        subst h'
        exact ⟨rfl, rfl, h.1, h.2⟩
      · rintro ⟨hl, hw, -, -⟩
        injection hw with hw
        obtain ⟨ww, wl⟩ := w
        simp_all
    · rw [if_neg h]
      constructor
      · rintro h'; cases h'
      · rintro ⟨hl, hw, h1, h2⟩
        injection hw with hw
        rw [← hw] at h1 h2
        exact absurd ⟨h1, h2⟩ h

/-- No line-winner record exists exactly when the line is not complete. -/
theorem lineWinner_none_iff {b : Board} {l : Line} :
    lineWinner b l = none ↔ ¬ lineComplete b l := by
  constructor
  · rintro h ⟨m, h1, h2, h3⟩
    unfold lineWinner at h
    rw [h1] at h
    simp [h2, h3] at h
  · intro h
    rcases hlw : lineWinner b l with _ | w
    · rfl
    · obtain ⟨-, c1, c2, c3⟩ := lineWinner_some_iff.mp hlw
      exact absurd ⟨w.winner, c1, c2, c3⟩ h

/-- A successful `findWin` names the first complete line in scan order. -/
theorem findWin_some {b : Board} :
    ∀ (ls : List Line) (w : WinInfo), findWin b ls = some w →
      ∃ k : Nat, ls[k]? = some w.line ∧ lineWinner b w.line = some w ∧
        ∀ j : Nat, j < k → ∀ l', ls[j]? = some l' → lineWinner b l' = none := by
  intro ls
  induction ls with
  | nil => intro w h; cases h
  | cons l rest ih =>
    intro w h
    rw [findWin] at h
    rcases hlw : lineWinner b l with _ | w'
    · rw [hlw] at h
      obtain ⟨k, hk1, hk2, hk3⟩ := ih w h
      refine ⟨k+1, by simpa using hk1, hk2, ?_⟩
      intro j hj l' hl'
      rcases j with _ | j
      · simp only [List.getElem?_cons_zero, Option.some.injEq] at hl'
        rw [← hl']
        exact hlw
      · exact hk3 j (by omega) l' (by simpa using hl')
    · rw [hlw] at h
      injection h with h
      subst h
      have hline : w'.line = l := (lineWinner_some_iff.mp hlw).1
      refine ⟨0, by simp [hline], by rw [hline]; exact hlw, ?_⟩
      intro j hj
      omega

/-- `findWin` fails exactly when no scanned line is complete. -/
theorem findWin_none_iff {b : Board} :
    ∀ ls : List Line, findWin b ls = none ↔ ∀ l ∈ ls, lineWinner b l = none := by
  intro ls
  induction ls with
  | nil => simp [findWin]
  | cons l rest ih =>
    rw [findWin]
    rcases hlw : lineWinner b l with _ | w
    · simp [hlw, ih]
    · simp only [hlw]
      constructor
      · rintro h; cases h
      · intro h
        exact absurd (h l (by simp)) (by simp [hlw])

/-- With no complete line, `isDraw` is the all-cells-filled test. -/
theorem isDraw_iff_full {b : Board} (hlen : b.length = 9) (hcw : checkWin b = none) :
    isDraw b = true ↔ ∀ i, i < 9 → cellAt b i ≠ none := by
  unfold isDraw
  rw [hcw]
  simp only [Option.isNone_none, Bool.and_true]
  rw [List.all_eq_true]
  constructor
  · intro h i hi
    have hi' : i < b.length := by omega
    have hsome := h _ (List.getElem_mem hi')
    rw [cellAt, List.getElem?_eq_getElem hi']
    simp only [Option.getD_some]
    exact Option.ne_none_iff_isSome.mpr hsome
  · intro h c hc
    obtain ⟨i, hi, rfl⟩ := List.mem_iff_getElem.mp hc
    have hne := h i (by omega)
    rw [cellAt, List.getElem?_eq_getElem hi] at hne
    simp only [Option.getD_some] at hne
    exact Option.ne_none_iff_isSome.mp hne

/-- C2: `evaluate` is total with exactly the three outcomes; a `Win`
outcome names one of the 8 fixed lines, whose three cells are non-empty and
equal to the winner, and it is the first complete line in the fixed scan
order (rows, columns, diagonals); `Draw` is returned exactly when every
cell is filled and no line is complete. -/
theorem C2_evaluate_spec (b : Board) (hlen : b.length = 9) :
    (evaluate b = .inProgress ∨ (∃ m l, evaluate b = .win m l) ∨ evaluate b = .draw) ∧
    (∀ m l, evaluate b = .win m l →
      l ∈ WINNING_LINES ∧
      cellAt b l.1 = some m ∧ cellAt b l.2.1 = some m ∧ cellAt b l.2.2 = some m ∧
      ∃ k, k < 8 ∧ WINNING_LINES[k]? = some l ∧
        ∀ j, j < k → ∀ l', WINNING_LINES[j]? = some l' → ¬ lineComplete b l') ∧
    (evaluate b = .draw ↔ ((∀ i, i < 9 → cellAt b i ≠ none) ∧
      ∀ l ∈ WINNING_LINES, ¬ lineComplete b l)) := by
  refine ⟨?_, ?_, ?_⟩
  · rcases he : evaluate b with _ | ⟨m, l⟩ | _
    · exact Or.inl rfl
    · exact Or.inr (Or.inl ⟨m, l, rfl⟩)
    · exact Or.inr (Or.inr rfl)
  · intro m l he
    unfold evaluate at he
    rcases hcw : checkWin b with _ | w
    · rw [hcw] at he
      dsimp only at he
      by_cases hd : isDraw b = true
      · rw [if_pos hd] at he; cases he
      · rw [if_neg hd] at he; cases he
    · rw [hcw] at he
      dsimp only at he
      injection he with hm hl
      obtain ⟨k, hk1, hk2, hk3⟩ := findWin_some WINNING_LINES w hcw
      obtain ⟨hklt, hkeq⟩ := List.getElem?_eq_some_iff.mp hk1
      have hmem : w.line ∈ WINNING_LINES := hkeq ▸ List.getElem_mem hklt
      obtain ⟨-, c1, c2, c3⟩ := lineWinner_some_iff.mp hk2
      subst hm
      subst hl
      refine ⟨hmem, c1, c2, c3, k, ?_, hk1, ?_⟩
      · simpa using hklt
      · intro j hj l' hl'
        exact lineWinner_none_iff.mp (hk3 j hj l' hl')
  · constructor
    · intro he
      unfold evaluate at he
      rcases hcw : checkWin b with _ | w
      · rw [hcw] at he
        dsimp only at he
        by_cases hd : isDraw b = true
        · refine ⟨(isDraw_iff_full hlen hcw).mp hd, ?_⟩
          intro l hl
          exact lineWinner_none_iff.mp ((findWin_none_iff WINNING_LINES).mp hcw l hl)
        · rw [if_neg hd] at he
          cases he
      · rw [hcw] at he
        dsimp only at he
        cases he
    · rintro ⟨hfull, hnone⟩
      have hcw : checkWin b = none := by
        rw [checkWin, findWin_none_iff]
        intro l hl
        exact lineWinner_none_iff.mpr (hnone l hl)
      unfold evaluate
      rw [hcw]
      dsimp only
      rw [if_pos ((isDraw_iff_full hlen hcw).mpr hfull)]

/-- Witness for C2 at a decided concrete board (top row of X). -/
theorem C2_evaluate_spec_witness :
    ([some .X, some .X, some .X, some .O, some .O, none, none, none, none] :
      Board).length = 9 ∧
    ((evaluate [some .X, some .X, some .X, some .O, some .O, none, none, none, none] =
        .inProgress ∨
      (∃ m l, evaluate [some .X, some .X, some .X, some .O, some .O, none, none, none, none] =
        .win m l) ∨
      evaluate [some .X, some .X, some .X, some .O, some .O, none, none, none, none] =
        .draw) ∧
    (∀ m l, evaluate [some .X, some .X, some .X, some .O, some .O, none, none, none, none] =
        .win m l →
      l ∈ WINNING_LINES ∧
      cellAt [some .X, some .X, some .X, some .O, some .O, none, none, none, none] l.1 =
        some m ∧
      cellAt [some .X, some .X, some .X, some .O, some .O, none, none, none, none] l.2.1 =
        some m ∧
      cellAt [some .X, some .X, some .X, some .O, some .O, none, none, none, none] l.2.2 =
        some m ∧
      ∃ k, k < 8 ∧ WINNING_LINES[k]? = some l ∧
        ∀ j, j < k → ∀ l', WINNING_LINES[j]? = some l' →
          ¬ lineComplete [some .X, some .X, some .X, some .O, some .O, none, none, none, none] l') ∧
    (evaluate [some .X, some .X, some .X, some .O, some .O, none, none, none, none] = .draw ↔
      ((∀ i, i < 9 →
        cellAt [some .X, some .X, some .X, some .O, some .O, none, none, none, none] i ≠ none) ∧
      ∀ l ∈ WINNING_LINES,
        ¬ lineComplete [some .X, some .X, some .X, some .O, some .O, none, none, none, none] l))) :=
  ⟨by decide,
   C2_evaluate_spec [some .X, some .X, some .X, some .O, some .O, none, none, none, none]
     (by decide)⟩


/-! ### Bounds on the unpruned reference value (for C3/C10) -/

/-- Either mark is `aiS` or `hS` when those two differ. -/
theorem mark_cases {aiS hS : Mark} (hne : aiS ≠ hS) (w : Mark) : w = aiS ∨ w = hS := by
  cases aiS <;> cases hS <;> cases w <;> simp_all

/-- A non-full board with 9 cells has an empty cell below index 9. -/
theorem exists_empty_of_not_full {b : Board} (hlen : b.length = 9)
    (hfull : b.all (fun c => c.isSome) = false) :
    ∃ i, i < 9 ∧ b[i]? = some none := by
  rcases List.all_eq_false.mp hfull with ⟨c, hc, hcs⟩
  obtain ⟨i, hi, rfl⟩ := List.mem_iff_getElem.mp hc
  have : b[i] = none := by
    cases hbi : b[i]
    · rfl
    · rw [hbi] at hcs; cases hcs rfl
  exact ⟨i, by omega, by rw [List.getElem?_eq_getElem hi, this]⟩

/-- The max-fold of `npLoop` only grows its accumulator. -/
theorem npLoopMax_ge_acc {nv : Board → Int} {m : Mark} :
    ∀ (l : List Nat) (b : Board) (acc : Int), acc ≤ npLoop nv m true l b acc := by
  intro l
  induction l with
  | nil => intro b acc; exact le_rfl
  | cons i rest ih =>
    intro b acc
    rcases hc : b[i]? with _ | (_ | mv) <;> simp only [npLoop, hc]
    · exact ih b acc
    · exact le_trans (le_max_left _ _) (ih b _)
    · exact ih b acc

/-- The min-fold of `npLoop` only shrinks its accumulator. -/
theorem npLoopMin_le_acc {nv : Board → Int} {m : Mark} :
    ∀ (l : List Nat) (b : Board) (acc : Int), npLoop nv m false l b acc ≤ acc := by
  intro l
  induction l with
  | nil => intro b acc; exact le_rfl
  | cons i rest ih =>
    intro b acc
    rcases hc : b[i]? with _ | (_ | mv) <;> simp only [npLoop, hc]
    · exact ih b acc
    · exact le_trans (ih b _) (min_le_left _ _)
    · exact ih b acc

/-- Upper bound for the max-fold from bounds on accumulator and children. -/
theorem npLoopMax_le {nv : Board → Int} {m : Mark} {c : Int} :
    ∀ (l : List Nat) (b : Board) (acc : Int), acc ≤ c →
      (∀ i ∈ l, b[i]? = some none → nv (b.set i (some m)) ≤ c) →
      npLoop nv m true l b acc ≤ c := by
  intro l
  induction l with
  | nil => intro b acc hacc _; exact hacc
  | cons i rest ih =>
    intro b acc hacc hch
    rcases hc : b[i]? with _ | (_ | mv) <;> simp only [npLoop, hc]
    · exact ih b acc hacc (fun j hj => hch j (by simp [hj]))
    · exact ih b _ (max_le hacc (hch i (by simp) hc))
        (fun j hj => hch j (by simp [hj]))
    · exact ih b acc hacc (fun j hj => hch j (by simp [hj]))

/-- Lower bound for the min-fold from bounds on accumulator and children. -/
theorem npLoopMin_ge {nv : Board → Int} {m : Mark} {c : Int} :
    ∀ (l : List Nat) (b : Board) (acc : Int), c ≤ acc →
      (∀ i ∈ l, b[i]? = some none → c ≤ nv (b.set i (some m))) →
      c ≤ npLoop nv m false l b acc := by
  intro l
  induction l with
  | nil => intro b acc hacc _; exact hacc
  | cons i rest ih =>
    intro b acc hacc hch
    rcases hc : b[i]? with _ | (_ | mv) <;> simp only [npLoop, hc]
    · exact ih b acc hacc (fun j hj => hch j (by simp [hj]))
    · exact ih b _ (le_min hacc (hch i (by simp) hc))
        (fun j hj => hch j (by simp [hj]))
    · exact ih b acc hacc (fun j hj => hch j (by simp [hj]))

/-- The max-fold reaches at least one processed child's value. -/
theorem npLoopMax_ge_child {nv : Board → Int} {m : Mark} :
    ∀ (l : List Nat) (b : Board) (acc : Int) (i : Nat), i ∈ l → b[i]? = some none →
      nv (b.set i (some m)) ≤ npLoop nv m true l b acc := by
  intro l
  induction l with
  | nil => intro b acc i hi; cases hi
  | cons j rest ih =>
    intro b acc i hi hc
    rcases List.mem_cons.mp hi with rfl | hmem
    · simp only [npLoop, hc]
      exact le_trans (le_max_right _ _) (npLoopMax_ge_acc rest b _)
    · rcases hcj : b[j]? with _ | (_ | mv) <;> simp only [npLoop, hcj]
      · exact ih b acc i hmem hc
      · exact ih b _ i hmem hc
      · exact ih b acc i hmem hc

/-- The min-fold goes at most as low as any processed child's value. -/
theorem npLoopMin_le_child {nv : Board → Int} {m : Mark} :
    ∀ (l : List Nat) (b : Board) (acc : Int) (i : Nat), i ∈ l → b[i]? = some none →
      npLoop nv m false l b acc ≤ nv (b.set i (some m)) := by
  intro l
  induction l with
  | nil => intro b acc i hi; cases hi
  | cons j rest ih =>
    intro b acc i hi hc
    rcases List.mem_cons.mp hi with rfl | hmem
    · simp only [npLoop, hc]
      exact le_trans (npLoopMin_le_acc rest b _) (min_le_right _ _)
    · rcases hcj : b[j]? with _ | (_ | mv) <;> simp only [npLoop, hcj]
      · exact ih b acc i hmem hc
      · exact ih b _ i hmem hc
      · exact ih b acc i hmem hc

/-- The unpruned value of any position within the first 10 plies lies in
`[-110, 110]`, well inside the `±1000` infinities. -/
theorem npScore_bounds :
    ∀ (fuel : Nat) (b : Board) (aiS hS : Mark) (t : Bool) (depth : Nat),
      b.length = 9 → depth + fuel ≤ 10 → aiS ≠ hS →
      -110 ≤ npScore fuel b aiS hS t depth ∧ npScore fuel b aiS hS t depth ≤ 110 := by
  intro fuel
  induction fuel with
  | zero =>
    intro b aiS hS t depth _ _ _
    constructor <;> simp [npScore]
  | succ fuel ih =>
    intro b aiS hS t depth hlen hdep hne
    simp only [npScore]
    rcases hcw : checkWin b with _ | w
    · dsimp only
      rcases hdraw : isDraw b with _ | _
      · simp only [Bool.false_eq_true, if_false]
        have hfull : b.all (fun c => c.isSome) = false := by
          unfold isDraw at hdraw
          rw [hcw] at hdraw
          simpa using hdraw
        obtain ⟨i0, hi09, hi0e⟩ := exists_empty_of_not_full hlen hfull
        rcases t with _ | _
        · simp only [Bool.false_eq_true, if_false]
          constructor
          · exact npLoopMin_ge (List.range 9) b INF (by norm_num [INF])
              (fun i _ hie => (ih (b.set i (some hS)) aiS hS true (depth+1)
                (by rw [List.length_set]; exact hlen) (by omega) hne).1)
          · exact le_trans
              (npLoopMin_le_child (List.range 9) b INF i0 (List.mem_range.mpr hi09) hi0e)
              (ih (b.set i0 (some hS)) aiS hS true (depth+1)
                (by rw [List.length_set]; exact hlen) (by omega) hne).2
        · simp only [if_true]
          constructor
          · exact le_trans
              (ih (b.set i0 (some aiS)) aiS hS false (depth+1)
                (by rw [List.length_set]; exact hlen) (by omega) hne).1
              (npLoopMax_ge_child (List.range 9) b (-INF) i0 (List.mem_range.mpr hi09) hi0e)
          · exact npLoopMax_le (List.range 9) b (-INF) (by norm_num [INF])
              (fun i _ hie => (ih (b.set i (some aiS)) aiS hS false (depth+1)
                (by rw [List.length_set]; exact hlen) (by omega) hne).2)
      · simp
    · dsimp only
      rcases mark_cases hne w.winner with hw | hw
      · rw [if_pos hw]
        constructor <;> omega
      · rw [if_neg (by rw [hw]; exact fun h => hne h.symm), if_pos hw]
        constructor <;> omega



/-! ### Fail-soft bounds for the pruned loops (Knuth–Moore style) -/

/-- The strictly-better update of the pruned loops computes a `max`. -/
theorem bestUpdate_score_max (i : Nat) (g : Int) (best : MMResult) :
    ((if g > best.score then MMResult.mk (i : Int) g else best).score) =
      max best.score g := by
  split
  · rename_i h
    exact (max_eq_right (le_of_lt h)).symm
  · rename_i h
    exact (max_eq_left (not_lt.mp h)).symm

/-- Fail-soft invariant of the maximizing alpha-beta loop: relative to the
original alpha `α₀` and the unpruned fold over the same cells, the loop's
final score is squeezed between `min β` and `max α₀` of the true value. -/
theorem abMax_np_bounds
    {next : Board → Int → MMResult × Board} {nv : Board → Int} {m : Mark} {β : Int}
    (Hpres : ∀ x a, (next x a).2 = x) :
    ∀ (l : List Nat) (b : Board) (best : MMResult) (α₀ α a : Int),
      (∀ i ∈ l, b[i]? = some none → ∀ a', -INF ≤ a' → a' < β →
         min β (nv (b.set i (some m))) ≤ (next (b.set i (some m)) a').1.score ∧
         (next (b.set i (some m)) a').1.score ≤ max a' (nv (b.set i (some m)))) →
      -INF ≤ α₀ →
      α = max α₀ best.score →
      α < β →
      best.score ≤ max α₀ a →
      min β a ≤ best.score →
      min β (npLoop nv m true l b a) ≤ (abMax next m l b best α β).1.score ∧
      (abMax next m l b best α β).1.score ≤ max α₀ (npLoop nv m true l b a) := by
  intro l
  induction l with
  | nil =>
    intro b best α₀ α a _ _ _ _ hup hlo
    exact ⟨hlo, hup⟩
  | cons i rest ih =>
    intro b best α₀ α a Hch hα₀ hαeq hαβ hup hlo
    rcases hc : b[i]? with _ | (_ | mv)
    · simp only [abMax, npLoop, hc]
      exact ih b best α₀ α a (fun j hj => Hch j (by simp [hj])) hα₀ hαeq hαβ hup hlo
    · have hα : -INF ≤ α := by
        rw [hαeq]; exact le_trans hα₀ (le_max_left _ _)
      obtain ⟨hglo, hghi⟩ := Hch i (by simp) hc α hα hαβ
      have hb2 : ((next (b.set i (some m)) α).2).set i none = b := by
        rw [Hpres, set_set_none m hc]
      simp only [abMax, npLoop, hc, if_true, hb2]
      generalize hgdef : (next (b.set i (some m)) α).1.score = g at hglo hghi ⊢
      generalize hvdef : nv (b.set i (some m)) = v at hglo hghi ⊢
      have hα₀β : α₀ < β := lt_of_le_of_lt (by rw [hαeq]; exact le_max_left _ _) hαβ
      by_cases hbr : β ≤ max α g
      · rw [if_pos hbr]
        dsimp only
        simp only [bestUpdate_score_max]
        have hbs2 : β ≤ max best.score g := by
          rw [hαeq, max_assoc] at hbr
          rcases le_max_iff.mp hbr with h | h
          · exact absurd hα₀β (not_lt.mpr h)
          · exact h
        constructor
        · exact le_trans (min_le_left _ _) hbs2
        · have hL := @npLoopMax_ge_acc nv m rest b (max a v)
          apply max_le
          · exact le_trans hup (max_le_max le_rfl
              (le_trans (le_max_left a v) hL))
          · rcases le_max_iff.mp hghi with h | h
            · rw [hαeq] at h
              rcases le_max_iff.mp h with h' | h'
              · exact le_trans h' (le_max_left _ _)
              · exact le_trans (le_trans h' hup) (max_le_max le_rfl
                  (le_trans (le_max_left a v) hL))
            · exact le_trans h (le_trans (le_trans (le_max_right a v) hL)
                (le_max_right _ _))
      · rw [if_neg hbr]
        apply ih
        · intro j hj hje a' ha' ha'β
          exact Hch j (by simp [hj]) hje a' ha' ha'β
        · exact hα₀
        · simp only [bestUpdate_score_max]
          rw [hαeq, max_assoc]
        · exact lt_of_not_ge hbr
        · simp only [bestUpdate_score_max]
          apply max_le
          · exact le_trans hup (max_le_max le_rfl (le_max_left a v))
          · rcases le_max_iff.mp hghi with h | h
            · rw [hαeq] at h
              rcases le_max_iff.mp h with h' | h'
              · exact le_trans h' (le_max_left _ _)
              · exact le_trans (le_trans h' hup) (max_le_max le_rfl (le_max_left a v))
            · exact le_trans h (le_trans (le_max_right a v) (le_max_right _ _))
        · simp only [bestUpdate_score_max]
          rw [min_max_distrib_left]
          apply max_le
          · exact le_trans hlo (le_max_left _ _)
          · exact le_trans hglo (le_max_right _ _)
    · simp only [abMax, npLoop, hc]
      exact ih b best α₀ α a (fun j hj => Hch j (by simp [hj])) hα₀ hαeq hαβ hup hlo


/-- The strictly-smaller update of the minimizing loop computes a `min`. -/
theorem bestUpdate_score_min (i : Nat) (g : Int) (best : MMResult) :
    ((if g < best.score then MMResult.mk (i : Int) g else best).score) =
      min best.score g := by
  split
  · rename_i h
    exact (min_eq_right (le_of_lt h)).symm
  · rename_i h
    exact (min_eq_left (not_lt.mp h)).symm

/-- Fail-soft invariant of the minimizing alpha-beta loop; mirror image of
`abMax_np_bounds`. -/
theorem abMin_np_bounds
    {next : Board → Int → MMResult × Board} {nv : Board → Int} {m : Mark} {α : Int}
    (Hpres : ∀ x a, (next x a).2 = x) :
    ∀ (l : List Nat) (b : Board) (best : MMResult) (β₀ β a : Int),
      (∀ i ∈ l, b[i]? = some none → ∀ b', b' ≤ INF → α < b' →
         min b' (nv (b.set i (some m))) ≤ (next (b.set i (some m)) b').1.score ∧
         (next (b.set i (some m)) b').1.score ≤ max α (nv (b.set i (some m)))) →
      β₀ ≤ INF →
      β = min β₀ best.score →
      α < β →
      min β₀ a ≤ best.score →
      best.score ≤ max α a →
      min β₀ (npLoop nv m false l b a) ≤ (abMin next m l b best α β).1.score ∧
      (abMin next m l b best α β).1.score ≤ max α (npLoop nv m false l b a) := by
  intro l
  induction l with
  | nil =>
    intro b best β₀ β a _ _ _ _ hlo hup
    exact ⟨hlo, hup⟩
  | cons i rest ih =>
    intro b best β₀ β a Hch hβ₀ hβeq hαβ hlo hup
    rcases hc : b[i]? with _ | (_ | mv)
    · simp only [abMin, npLoop, hc]
      exact ih b best β₀ β a (fun j hj => Hch j (by simp [hj])) hβ₀ hβeq hαβ hlo hup
    · have hβ : β ≤ INF := by
        rw [hβeq]; exact le_trans (min_le_left _ _) hβ₀
      obtain ⟨hglo, hghi⟩ := Hch i (by simp) hc β hβ hαβ
      have hb2 : ((next (b.set i (some m)) β).2).set i none = b := by
        rw [Hpres, set_set_none m hc]
      simp only [abMin, npLoop, hc, hb2, Bool.false_eq_true, if_false]
      generalize hgdef : (next (b.set i (some m)) β).1.score = g at hglo hghi ⊢
      generalize hvdef : nv (b.set i (some m)) = v at hglo hghi ⊢
      have hαβ₀ : α < β₀ := lt_of_lt_of_le hαβ (by rw [hβeq]; exact min_le_left _ _)
      by_cases hbr : min β g ≤ α
      · rw [if_pos hbr]
        dsimp only
        simp only [bestUpdate_score_min]
        have hbs2 : min best.score g ≤ α := by
          rw [hβeq, min_assoc] at hbr
          rcases min_le_iff.mp hbr with h | h
          · exact absurd hαβ₀ (not_lt.mpr h)
          · exact h
        constructor
        · have hL := @npLoopMin_le_acc nv m rest b (min a v)
          apply le_min
          · exact le_trans (min_le_min le_rfl
              (le_trans hL (min_le_left a v))) hlo
          · rcases min_le_iff.mp hglo with h | h
            · rw [hβeq] at h
              rcases min_le_iff.mp h with h' | h'
              · exact le_trans (min_le_left _ _) h'
              · exact le_trans (min_le_min le_rfl
                  (le_trans hL (min_le_left a v))) (le_trans hlo h')
            · exact le_trans (min_le_right _ _)
                (le_trans (le_trans hL (min_le_right a v)) h)
        · exact le_trans hbs2 (le_max_left _ _)
      · rw [if_neg hbr]
        apply ih
        · intro j hj hje b' hb' hαb'
          exact Hch j (by simp [hj]) hje b' hb' hαb'
        · exact hβ₀
        · simp only [bestUpdate_score_min]
          rw [hβeq, min_assoc]
        · exact lt_of_not_ge hbr
        · simp only [bestUpdate_score_min]
          apply le_min
          · exact le_trans (min_le_min le_rfl (min_le_left a v)) hlo
          · rcases min_le_iff.mp hglo with h | h
            · rw [hβeq] at h
              rcases min_le_iff.mp h with h' | h'
              · exact le_trans (min_le_left _ _) h'
              · exact le_trans (min_le_min le_rfl (min_le_left a v)) (le_trans hlo h')
            · exact le_trans (min_le_right _ _) (le_trans (min_le_right a v) h)
        · simp only [bestUpdate_score_min]
          rw [max_min_distrib_left]
          apply le_min
          · exact le_trans (min_le_left _ _) (le_trans hup (max_le_max le_rfl (le_refl a)))
          · exact le_trans (min_le_right _ _) hghi
    · simp only [abMin, npLoop, hc]
      exact ih b best β₀ β a (fun j hj => Hch j (by simp [hj])) hβ₀ hβeq hαβ hlo hup


/-- Main fail-soft theorem: the pruned search score is squeezed between
`min β` and `max α` of the unpruned reference value. -/
theorem ab_bounds :
    ∀ (fuel : Nat) (b : Board) (aiS hS : Mark) (t : Bool) (α β : Int) (depth : Nat),
      b.length = 9 → depth + fuel ≤ 10 → -INF ≤ α → β ≤ INF → α < β →
      min β (npScore fuel b aiS hS t depth) ≤ (minimax fuel b aiS hS t α β depth).1.score ∧
      (minimax fuel b aiS hS t α β depth).1.score ≤ max α (npScore fuel b aiS hS t depth) := by
  intro fuel
  induction fuel with
  | zero =>
    intro b aiS hS t α β depth _ _ _ _ _
    simp only [minimax, npScore]
    exact ⟨min_le_right _ _, le_max_right _ _⟩
  | succ fuel ih =>
    intro b aiS hS t α β depth hlen hdep hα hβ hαβ
    simp only [minimax, npScore]
    rcases hcw : checkWin b with _ | w
    · dsimp only
      rcases hdraw : isDraw b with _ | _
      · simp only [Bool.false_eq_true, if_false]
        rcases t with _ | _
        · simp only [Bool.false_eq_true, if_false]
          exact abMin_np_bounds
            (fun x a => minimax_board fuel x aiS hS true α a (depth+1))
            (List.range 9) b ⟨-1, INF⟩ β β INF
            (fun i _ hie b' hb' hαb' =>
              ih (b.set i (some hS)) aiS hS true α b' (depth+1)
                (by rw [List.length_set]; exact hlen) (by omega) hα hb' hαb')
            hβ ((min_eq_left hβ).symm) hαβ (min_le_right _ _) (le_max_right _ _)
        · simp only [if_true]
          exact abMax_np_bounds
            (fun x a => minimax_board fuel x aiS hS false a β (depth+1))
            (List.range 9) b ⟨-1, -INF⟩ α α (-INF)
            (fun i _ hie a' ha' ha'β =>
              ih (b.set i (some aiS)) aiS hS false a' β (depth+1)
                (by rw [List.length_set]; exact hlen) (by omega) ha' hβ ha'β)
            hα ((max_eq_left hα).symm) hαβ (le_max_right _ _) (min_le_right _ _)
      · simp only [if_true]
        exact ⟨min_le_right _ _, le_max_right _ _⟩
    · dsimp only
      by_cases h1 : w.winner = aiS
      · rw [if_pos h1, if_pos h1]
        exact ⟨min_le_right _ _, le_max_right _ _⟩
      · rw [if_neg h1, if_neg h1]
        by_cases h2 : w.winner = hS
        · rw [if_pos h2, if_pos h2]
          exact ⟨min_le_right _ _, le_max_right _ _⟩
        · rw [if_neg h2, if_neg h2]
          rcases hdraw : isDraw b with _ | _
          · simp only [Bool.false_eq_true, if_false]
            rcases t with _ | _
            · simp only [Bool.false_eq_true, if_false]
              exact abMin_np_bounds
                (fun x a => minimax_board fuel x aiS hS true α a (depth+1))
                (List.range 9) b ⟨-1, INF⟩ β β INF
                (fun i _ hie b' hb' hαb' =>
                  ih (b.set i (some hS)) aiS hS true α b' (depth+1)
                    (by rw [List.length_set]; exact hlen) (by omega) hα hb' hαb')
                hβ ((min_eq_left hβ).symm) hαβ (min_le_right _ _) (le_max_right _ _)
            · simp only [if_true]
              exact abMax_np_bounds
                (fun x a => minimax_board fuel x aiS hS false a β (depth+1))
                (List.range 9) b ⟨-1, -INF⟩ α α (-INF)
                (fun i _ hie a' ha' ha'β =>
                  ih (b.set i (some aiS)) aiS hS false a' β (depth+1)
                    (by rw [List.length_set]; exact hlen) (by omega) ha' hβ ha'β)
                hα ((max_eq_left hα).symm) hαβ (le_max_right _ _) (min_le_right _ _)
          · simp only [if_true]
            exact ⟨min_le_right _ _, le_max_right _ _⟩


/-! ### Claim C3: pruning never changes the root value -/

/-- C3: for every 9-cell board, AI mark and side to move, the alpha-beta
search launched with the infinite window returns exactly the root score of
the unpruned full-depth minimax with the same terminal scoring; pruning
affects only cost, never the value.  At `fuel = 10` neither side ever
reaches its fuel stub on a 9-cell board (at most 9 plies can be played
below the root, each consuming one fuel, and a full board terminates via
the win/draw tests without recursing), so both sides are the untruncated
searches of the source and of the spec. -/
theorem C3_pruning_preserves_value (b : Board) (aiS : Mark) (t : Bool)
    (hlen : b.length = 9) :
    (minimax 10 b aiS (if aiS = .X then Mark.O else Mark.X) t (-INF) INF 0).1.score =
      npScore 10 b aiS (if aiS = .X then Mark.O else Mark.X) t 0 := by
  have hne : aiS ≠ (if aiS = .X then Mark.O else Mark.X) := by cases aiS <;> simp
  obtain ⟨hnl, hnu⟩ := npScore_bounds 10 b aiS (if aiS = .X then Mark.O else Mark.X) t 0
    hlen (by omega) hne
  obtain ⟨habl, habu⟩ := ab_bounds 10 b aiS (if aiS = .X then Mark.O else Mark.X) t
    (-INF) INF 0 hlen (by omega) le_rfl le_rfl (by norm_num [INF])
  rw [min_eq_right (le_trans hnu (by norm_num [INF]))] at habl
  rw [max_eq_right (le_trans (by norm_num [INF]) hnl)] at habu
  exact le_antisymm habu habl

/-- Witness for C3 on a concrete two-empty-cell midgame board. -/
theorem C3_pruning_preserves_value_witness :
    ([some .X, some .O, some .X, some .O, some .O, some .X, none, some .X, none] :
      Board).length = 9 ∧
    (minimax 10 [some .X, some .O, some .X, some .O, some .O, some .X, none, some .X, none]
        .X (if Mark.X = .X then Mark.O else Mark.X) true (-INF) INF 0).1.score =
      npScore 10 [some .X, some .O, some .X, some .O, some .O, some .X, none, some .X, none]
        .X (if Mark.X = .X then Mark.O else Mark.X) true 0 :=
  ⟨by decide,
   C3_pruning_preserves_value
     [some .X, some .O, some .X, some .O, some .O, some .X, none, some .X, none]
     .X true (by decide)⟩

/-! ### Claim C10: the root search never returns the -1 sentinel -/

/-- An `abMax` run either returns its entry record untouched or an index
that is an empty cell of its board. -/
theorem abMax_index {next : Board → Int → MMResult × Board} {m : Mark}
    (Hpres : ∀ x a, (next x a).2 = x) :
    ∀ (l : List Nat) (b : Board) (best : MMResult) (α β : Int),
      (abMax next m l b best α β).1 = best ∨
      ∃ i ∈ l, b[i]? = some none ∧ (abMax next m l b best α β).1.index = (i : Int) := by
  intro l
  induction l with
  | nil => intro b best α β; exact Or.inl rfl
  | cons i rest ih =>
    intro b best α β
    rcases hc : b[i]? with _ | (_ | mv)
    · simp only [abMax, hc]
      rcases ih b best α β with h | ⟨j, hj, hje, hidx⟩
      · exact Or.inl h
      · exact Or.inr ⟨j, by simp [hj], hje, hidx⟩
    · have hb2 : ((next (b.set i (some m)) α).2).set i none = b := by
        rw [Hpres, set_set_none m hc]
      simp only [abMax, hc, hb2]
      by_cases hbr : β ≤ max α ((next (b.set i (some m)) α).1.score)
      · rw [if_pos hbr]
        by_cases hup : (next (b.set i (some m)) α).1.score > best.score
        · rw [if_pos hup]
          exact Or.inr ⟨i, by simp, hc, rfl⟩
        · rw [if_neg hup]
          exact Or.inl rfl
      · rw [if_neg hbr]
        rcases ih b (if (next (b.set i (some m)) α).1.score > best.score
            then MMResult.mk (i : Int) ((next (b.set i (some m)) α).1.score) else best)
            (max α ((next (b.set i (some m)) α).1.score)) β with h | ⟨j, hj, hje, hidx⟩
        · rw [h]
          by_cases hup : (next (b.set i (some m)) α).1.score > best.score
          · rw [if_pos hup]
            exact Or.inr ⟨i, by simp, hc, rfl⟩
          · rw [if_neg hup]
            exact Or.inl rfl
        · exact Or.inr ⟨j, by simp [hj], hje, hidx⟩
    · simp only [abMax, hc]
      rcases ih b best α β with h | ⟨j, hj, hje, hidx⟩
      · exact Or.inl h
      · exact Or.inr ⟨j, by simp [hj], hje, hidx⟩

/-- Unfolding of one maximizing `minimax` level on a live board. -/
theorem minimax_run_max (fuel : Nat) (b : Board) (aiS hS : Mark) (α β : Int)
    (depth : Nat) (hcw : checkWin b = none) (hdraw : isDraw b = false) :
    minimax (fuel+1) b aiS hS true α β depth =
      abMax (fun b' a' => minimax fuel b' aiS hS false a' β (depth+1)) aiS
        (List.range 9) b ⟨-1, -INF⟩ α β := by
  simp only [minimax, hcw, hdraw, Bool.false_eq_true, if_false, if_true]

/-- C10: on a non-terminal, non-empty 9-cell board the root search never
returns the `-1` sentinel: `aiMinimaxMove` answers the index of a
currently-empty cell without ever needing the random fallback. -/
theorem C10_no_sentinel_at_root (b : Board) (aiS : Mark) (r : Nat)
    (hlen : b.length = 9) (hcw : checkWin b = none)
    (hempty : ∃ i ∈ List.range 9, b[i]? = some none)
    (hfilled : ∃ j ∈ List.range 9, ∃ mk : Mark, b[j]? = some (some mk)) :
    (minimax 9 b aiS (if aiS = .X then Mark.O else Mark.X) true (-INF) INF 0).1.index ≠ -1 ∧
    ∃ i : Nat, i < 9 ∧ b[i]? = some none ∧ aiMinimaxMove b aiS r = (i : Int) := by
  have hne : aiS ≠ (if aiS = .X then Mark.O else Mark.X) := by cases aiS <;> simp
  obtain ⟨i0, hi0r, hi0e⟩ := hempty
  obtain ⟨j0, hj0r, mk0, hj0f⟩ := hfilled
  have hdraw : isDraw b = false := by
    unfold isDraw
    rw [hcw]
    have : b.all (fun c => c.isSome) = false := by
      rw [List.all_eq_false]
      refine ⟨none, ?_, by simp⟩
      obtain ⟨hlt, heq⟩ := List.getElem?_eq_some_iff.mp hi0e
      exact heq ▸ List.getElem_mem hlt
    simp [this]
  have hnotallempty : b.all (fun c => c = none) = false := by
    rw [List.all_eq_false]
    refine ⟨some mk0, ?_, by simp⟩
    obtain ⟨hlt, heq⟩ := List.getElem?_eq_some_iff.mp hj0f
    exact heq ▸ List.getElem_mem hlt
  -- score of the root is far above the -INF initialization
  obtain ⟨hnl, -⟩ := npScore_bounds 9 b aiS (if aiS = .X then Mark.O else Mark.X) true 0
    hlen (by omega) hne
  obtain ⟨habl, -⟩ := ab_bounds 9 b aiS (if aiS = .X then Mark.O else Mark.X) true
    (-INF) INF 0 hlen (by omega) le_rfl le_rfl (by norm_num [INF])
  rw [min_eq_right (le_trans (npScore_bounds 9 b aiS _ true 0 hlen (by omega) hne).2
    (by norm_num [INF]))] at habl
  have hscore : -110 ≤ (minimax 9 b aiS (if aiS = .X then Mark.O else Mark.X) true
      (-INF) INF 0).1.score := le_trans hnl habl
  -- the root call runs the maximizing loop
  have hroot : (minimax 9 b aiS (if aiS = .X then Mark.O else Mark.X) true
      (-INF) INF 0).1 =
      (abMax (fun b' a' => minimax 8 b' aiS (if aiS = .X then Mark.O else Mark.X)
          false a' INF (0+1)) aiS (List.range 9) b ⟨-1, -INF⟩ (-INF) INF).1 :=
    congrArg Prod.fst
      (minimax_run_max 8 b aiS (if aiS = .X then Mark.O else Mark.X) (-INF) INF 0 hcw hdraw)
  rcases abMax_index
      (fun x a => minimax_board 8 x aiS (if aiS = .X then Mark.O else Mark.X) false a INF (0+1))
      (List.range 9) b ⟨-1, -INF⟩ (-INF) INF with hsame | ⟨i, hir, hie, hidx⟩
  · exfalso
    rw [hroot, hsame] at hscore
    norm_num [INF] at hscore
  · have hidx' : (minimax 9 b aiS (if aiS = .X then Mark.O else Mark.X) true
        (-INF) INF 0).1.index = (i : Int) := by rw [hroot]; exact hidx
    constructor
    · rw [hidx']
      omega
    · refine ⟨i, List.mem_range.mp hir, hie, ?_⟩
      unfold aiMinimaxMove
      rw [if_neg (by simp [hnotallempty])]
      exact hidx'

/-- Witness for C10 on a concrete three-empty-cell non-terminal board. -/
theorem C10_no_sentinel_at_root_witness :
    ([some .X, some .O, some .X, some .O, some .X, some .O, none, none, none] :
      Board).length = 9 ∧
    checkWin [some .X, some .O, some .X, some .O, some .X, some .O, none, none, none] =
      none ∧
    (∃ i ∈ List.range 9,
      ([some .X, some .O, some .X, some .O, some .X, some .O, none, none, none] :
        Board)[i]? = some none) ∧
    (∃ j ∈ List.range 9, ∃ mk : Mark,
      ([some .X, some .O, some .X, some .O, some .X, some .O, none, none, none] :
        Board)[j]? = some (some mk)) ∧
    ((minimax 9 [some .X, some .O, some .X, some .O, some .X, some .O, none, none, none]
        .O (if Mark.O = .X then Mark.O else Mark.X) true (-INF) INF 0).1.index ≠ -1 ∧
    ∃ i : Nat, i < 9 ∧
      ([some .X, some .O, some .X, some .O, some .X, some .O, none, none, none] :
        Board)[i]? = some none ∧
      aiMinimaxMove [some .X, some .O, some .X, some .O, some .X, some .O, none, none, none]
        .O 0 = (i : Int)) :=
  ⟨by decide, by decide, by decide, by decide,
   C10_no_sentinel_at_root
     [some .X, some .O, some .X, some .O, some .X, some .O, none, none, none]
     .O 0 (by decide) (by decide) (by decide) (by decide)⟩


/-! ### Correctness of the kernel-efficient mirror: packed arithmetic -/

/-- `Nat.mod` is `%`. -/
theorem nmod_eq (a b : Nat) : Nat.mod a b = a % b := rfl

/-- `Nat.div` is `/`. -/
theorem ndiv_eq (a b : Nat) : Nat.div a b = a / b := rfl

/-- `Nat.add` is `+`. -/
theorem nadd_eq (a b : Nat) : Nat.add a b = a + b := rfl

/-- `Nat.mul` is `*`. -/
theorem nmul_eq (a b : Nat) : Nat.mul a b = a * b := rfl

/-- `Nat.sub` is `-`. -/
theorem nsub_eq (a b : Nat) : Nat.sub a b = a - b := rfl

/-- `Nat.blt` is the decidable `<`. -/
theorem blt_eq_decide (a b : Nat) : Nat.blt a b = decide (a < b) := by
  by_cases h : a < b
  · simp [h, Nat.blt_eq]
  · simp only [h, decide_False]
    rw [Bool.eq_false_iff, Ne, Nat.blt_eq]
    exact h

/-- `Nat.ble` is the decidable `≤`. -/
theorem ble_eq_decide (a b : Nat) : Nat.ble a b = decide (a ≤ b) := by
  by_cases h : a ≤ b
  · simp [h, Nat.ble_eq]
  · simp only [h, decide_False]
    rw [Bool.eq_false_iff, Ne, Nat.ble_eq]
    exact h

/-- `Nat.beq` is the decidable `=`. -/
theorem beq_eq_decide (a b : Nat) : Nat.beq a b = decide (a = b) := by
  by_cases h : a = b
  · simp [h]
  · simp only [h, decide_False]
    rw [Bool.eq_false_iff, Ne, Nat.beq_eq]
    exact h

/-- Score digit of a packed in-range record. -/
theorem packR_mod {r : MMResult} (h1 : -1 ≤ r.index) (h2 : -1000 ≤ r.score)
    (h3 : r.score ≤ 1000) : packR r % 10000 = encI r.score := by
  unfold packR encI
  omega

/-- Index digit of a packed in-range record. -/
theorem packR_div {r : MMResult} (h1 : -1 ≤ r.index) (h2 : -1000 ≤ r.score)
    (h3 : r.score ≤ 1000) : packR r / 10000 = (r.index + 1).toNat := by
  unfold packR
  omega

/-- Packing the record the loops store for an explored cell `i`. -/
theorem packR_mk (i : Nat) (s : Int) (h2 : -1000 ≤ s) (h3 : s ≤ 1000) :
    (i + 1) * 10000 + encI s = packR (MMResult.mk (i : Int) s) := by
  unfold packR encI
  dsimp only
  omega

/-- `Nat.blt` on offset scores decides the score order. -/
theorem encI_blt {s t : Int} (hs : -1000 ≤ s) (ht : -1000 ≤ t) :
    Nat.blt (encI s) (encI t) = decide (s < t) := by
  rw [blt_eq_decide]
  exact decide_eq_decide.mpr (by unfold encI; omega)

/-- `Nat.ble` on offset scores decides the score order. -/
theorem encI_ble {s t : Int} (hs : -1000 ≤ s) (ht : -1000 ≤ t) :
    Nat.ble (encI s) (encI t) = decide (s ≤ t) := by
  rw [ble_eq_decide]
  exact decide_eq_decide.mpr (by unfold encI; omega)

/-- The raised-alpha update is `max` on offset scores. -/
theorem encI_max (s t : Int) :
    cond (decide (s ≤ t)) (encI t) (encI s) = encI (max s t) := by
  by_cases h : s ≤ t
  · rw [decide_eq_true h, cond_true, max_eq_right h]
  · rw [decide_eq_false h, cond_false, max_eq_left (le_of_not_le h)]

/-- The lowered-beta update is `min` on offset scores. -/
theorem encI_min (s t : Int) :
    cond (decide (t ≤ s)) (encI t) (encI s) = encI (min s t) := by
  by_cases h : t ≤ s
  · rw [decide_eq_true h, cond_true, min_eq_right h]
  · rw [decide_eq_false h, cond_false, min_eq_left (le_of_not_le h)]

/-- One-step unfolding of the fast maximizing loop. -/
theorem abMaxF_succ (child : Nat → Nat → Nat) (m k b best alpha beta : Nat) :
    abMaxF child m (k+1) b best alpha beta =
      (forceN (Nat.sub 8 k) fun i =>
        cond (Nat.beq (getF b i) 0)
          (forceN (child (setF b i m) alpha) fun s =>
            forceN (Nat.mod s 10000) fun sc =>
              forceN (cond (Nat.blt (Nat.mod best 10000) sc)
                       (Nat.add (Nat.mul (Nat.add i 1) 10000) sc) best) fun best2 =>
                forceN (cond (Nat.ble alpha sc) sc alpha) fun alpha2 =>
                  cond (Nat.ble beta alpha2) best2
                    (abMaxF child m k b best2 alpha2 beta))
          (abMaxF child m k b best alpha beta)) := rfl

/-- One-step unfolding of the fast minimizing loop. -/
theorem abMinF_succ (child : Nat → Nat → Nat) (m k b best alpha beta : Nat) :
    abMinF child m (k+1) b best alpha beta =
      (forceN (Nat.sub 8 k) fun i =>
        cond (Nat.beq (getF b i) 0)
          (forceN (child (setF b i m) beta) fun s =>
            forceN (Nat.mod s 10000) fun sc =>
              forceN (cond (Nat.blt sc (Nat.mod best 10000))
                       (Nat.add (Nat.mul (Nat.add i 1) 10000) sc) best) fun best2 =>
                forceN (cond (Nat.ble sc beta) sc beta) fun beta2 =>
                  cond (Nat.ble beta2 alpha) best2
                    (abMinF child m k b best2 alpha beta2))
          (abMinF child m k b best alpha beta)) := rfl

/-- The fast maximizing loop computes `abMax` on the packed state and keeps
its result in range, provided the packed child agrees with `next` and
`next` restores its board. -/
theorem abMaxF_correct {next : Board → Int → MMResult × Board}
    {child : Nat → Nat → Nat} {m : Mark}
    (Hch : ∀ (x : Board) (a : Int), x.length = 9 → -1000 ≤ a → a ≤ 1000 →
      child (encB x) (encI a) % 10000 = encI (next x a).1.score ∧
      -1000 ≤ (next x a).1.score ∧ (next x a).1.score ≤ 1000 ∧ (next x a).2 = x) :
    ∀ (k : Nat), k ≤ 9 → ∀ (b : Board), b.length = 9 →
      ∀ (best : MMResult), -1 ≤ best.index → best.index ≤ 8 →
        -1000 ≤ best.score → best.score ≤ 1000 →
      ∀ (alpha beta : Int), -1000 ≤ alpha → alpha ≤ 1000 →
        -1000 ≤ beta → beta ≤ 1000 →
      abMaxF child (markCode m) k (encB b) (packR best) (encI alpha) (encI beta)
          = packR (abMax next m (List.range' (9-k) k) b best alpha beta).1 ∧
        -1 ≤ (abMax next m (List.range' (9-k) k) b best alpha beta).1.index ∧
        (abMax next m (List.range' (9-k) k) b best alpha beta).1.index ≤ 8 ∧
        -1000 ≤ (abMax next m (List.range' (9-k) k) b best alpha beta).1.score ∧
        (abMax next m (List.range' (9-k) k) b best alpha beta).1.score ≤ 1000 := by
  intro k
  induction k with
  | zero =>
    intro _ b _ best hbi1 hbi2 hbs1 hbs2 alpha beta _ _ _ _
    have he : abMax next m (List.range' (9-0) 0) b best alpha beta = (best, b) := rfl
    rw [he]
    exact ⟨rfl, hbi1, hbi2, hbs1, hbs2⟩
  | succ k ih =>
    intro hk b hlen best hbi1 hbi2 hbs1 hbs2 alpha beta ha1 ha2 hb1 hb2
    have hk9 : k ≤ 9 := by omega
    have hrange : List.range' (9-(k+1)) (k+1) = (8-k) :: List.range' (9-k) k := by
      rw [show 9-(k+1) = 8-k from by omega, List.range'_succ,
        show 8-k+1 = 9-k from by omega]
    rw [hrange, abMaxF_succ]
    simp only [forceN_eq, nsub_eq, nadd_eq, nmul_eq, nmod_eq]
    rw [getF_encB b (8-k) (by omega)]
    obtain ⟨c, hc⟩ : ∃ c, b[8-k]? = some c := by
      rcases hx : b[8-k]? with _ | c
      · rw [List.getElem?_eq_none_iff] at hx
        omega
      · exact ⟨c, rfl⟩
    have hcl : cellAt b (8-k) = c := by
      unfold cellAt
      rw [hc]
      rfl
    rw [hcl]
    rcases c with _ | mk
    · have hb00 : Nat.beq (cellCode none) 0 = true := rfl
      rw [hb00, cond_true]
      simp only [abMax, hc]
      have hset : setF (encB b) (8-k) (markCode m) = encB (b.set (8-k) (some m)) :=
        setF_encB b (8-k) (some m) (by omega)
      rw [hset]
      obtain ⟨hch1, hch2, hch3, hch4⟩ :=
        Hch (b.set (8-k) (some m)) alpha (by rw [List.length_set]; exact hlen) ha1 ha2
      rw [hch1, packR_mod hbi1 hbs1 hbs2, encI_blt hbs1 hch2, encI_ble ha1 hch2,
        encI_max]
      have hbb : ((next (b.set (8-k) (some m)) alpha).2).set (8-k) none = b := by
        rw [hch4, set_set_none _ hc]
      rw [hbb]
      rw [encI_ble hb1 (le_trans ha1 (le_max_left alpha _))]
      simp only [gt_iff_lt]
      by_cases hlt : best.score < (next (b.set (8-k) (some m)) alpha).1.score
      · rw [decide_eq_true hlt, cond_true, if_pos hlt,
          packR_mk (8-k) _ hch2 hch3]
        by_cases hbr : beta ≤ max alpha ((next (b.set (8-k) (some m)) alpha).1.score)
        · rw [decide_eq_true hbr, cond_true, if_pos hbr]
          dsimp only
          exact ⟨rfl, by omega, by omega, hch2, hch3⟩
        · rw [decide_eq_false hbr, cond_false, if_neg hbr]
          exact ih hk9 b hlen
            (MMResult.mk ((8-k : Nat) : Int) ((next (b.set (8-k) (some m)) alpha).1.score))
            (by show (-1:Int) ≤ ((8-k : Nat) : Int); omega)
            (by show ((8-k : Nat) : Int) ≤ 8; omega)
            hch2 hch3 _ beta (le_trans ha1 (le_max_left alpha _))
            (max_le ha2 hch3) hb1 hb2
      · rw [decide_eq_false hlt, cond_false, if_neg hlt]
        by_cases hbr : beta ≤ max alpha ((next (b.set (8-k) (some m)) alpha).1.score)
        · rw [decide_eq_true hbr, cond_true, if_pos hbr]
          dsimp only
          exact ⟨rfl, hbi1, hbi2, hbs1, hbs2⟩
        · rw [decide_eq_false hbr, cond_false, if_neg hbr]
          exact ih hk9 b hlen best hbi1 hbi2 hbs1 hbs2 _ beta
            (le_trans ha1 (le_max_left alpha _)) (max_le ha2 hch3) hb1 hb2
    · have hbmk : Nat.beq (cellCode (some mk)) 0 = false := markCode_beq_zero mk
      rw [hbmk, cond_false]
      simp only [abMax, hc]
      exact ih hk9 b hlen best hbi1 hbi2 hbs1 hbs2 alpha beta ha1 ha2 hb1 hb2

/-- The fast minimizing loop computes `abMin` on the packed state; mirror
image of the previous lemma, with the child fed the moving `beta`. -/
theorem abMinF_correct {next : Board → Int → MMResult × Board}
    {child : Nat → Nat → Nat} {m : Mark}
    (Hch : ∀ (x : Board) (a : Int), x.length = 9 → -1000 ≤ a → a ≤ 1000 →
      child (encB x) (encI a) % 10000 = encI (next x a).1.score ∧
      -1000 ≤ (next x a).1.score ∧ (next x a).1.score ≤ 1000 ∧ (next x a).2 = x) :
    ∀ (k : Nat), k ≤ 9 → ∀ (b : Board), b.length = 9 →
      ∀ (best : MMResult), -1 ≤ best.index → best.index ≤ 8 →
        -1000 ≤ best.score → best.score ≤ 1000 →
      ∀ (alpha beta : Int), -1000 ≤ alpha → alpha ≤ 1000 →
        -1000 ≤ beta → beta ≤ 1000 →
      abMinF child (markCode m) k (encB b) (packR best) (encI alpha) (encI beta)
          = packR (abMin next m (List.range' (9-k) k) b best alpha beta).1 ∧
        -1 ≤ (abMin next m (List.range' (9-k) k) b best alpha beta).1.index ∧
        (abMin next m (List.range' (9-k) k) b best alpha beta).1.index ≤ 8 ∧
        -1000 ≤ (abMin next m (List.range' (9-k) k) b best alpha beta).1.score ∧
        (abMin next m (List.range' (9-k) k) b best alpha beta).1.score ≤ 1000 := by
  intro k
  induction k with
  | zero =>
    intro _ b _ best hbi1 hbi2 hbs1 hbs2 alpha beta _ _ _ _
    have he : abMin next m (List.range' (9-0) 0) b best alpha beta = (best, b) := rfl
    rw [he]
    exact ⟨rfl, hbi1, hbi2, hbs1, hbs2⟩
  | succ k ih =>
    intro hk b hlen best hbi1 hbi2 hbs1 hbs2 alpha beta ha1 ha2 hb1 hb2
    have hk9 : k ≤ 9 := by omega
    have hrange : List.range' (9-(k+1)) (k+1) = (8-k) :: List.range' (9-k) k := by
      rw [show 9-(k+1) = 8-k from by omega, List.range'_succ,
        show 8-k+1 = 9-k from by omega]
    rw [hrange, abMinF_succ]
    simp only [forceN_eq, nsub_eq, nadd_eq, nmul_eq, nmod_eq]
    rw [getF_encB b (8-k) (by omega)]
    obtain ⟨c, hc⟩ : ∃ c, b[8-k]? = some c := by
      rcases hx : b[8-k]? with _ | c
      · rw [List.getElem?_eq_none_iff] at hx
        omega
      · exact ⟨c, rfl⟩
    have hcl : cellAt b (8-k) = c := by
      unfold cellAt
      rw [hc]
      rfl
    rw [hcl]
    rcases c with _ | mk
    · have hb00 : Nat.beq (cellCode none) 0 = true := rfl
      rw [hb00, cond_true]
      simp only [abMin, hc]
      have hset : setF (encB b) (8-k) (markCode m) = encB (b.set (8-k) (some m)) :=
        setF_encB b (8-k) (some m) (by omega)
      rw [hset]
      obtain ⟨hch1, hch2, hch3, hch4⟩ :=
        Hch (b.set (8-k) (some m)) beta (by rw [List.length_set]; exact hlen) hb1 hb2
      rw [hch1, packR_mod hbi1 hbs1 hbs2, encI_blt hch2 hbs1, encI_ble hch2 hb1,
        encI_min]
      have hbb : ((next (b.set (8-k) (some m)) beta).2).set (8-k) none = b := by
        rw [hch4, set_set_none _ hc]
      rw [hbb]
      rw [encI_ble (le_min hb1 hch2) ha1]
      by_cases hlt : (next (b.set (8-k) (some m)) beta).1.score < best.score
      · rw [decide_eq_true hlt, cond_true, if_pos hlt,
          packR_mk (8-k) _ hch2 hch3]
        by_cases hbr : min beta ((next (b.set (8-k) (some m)) beta).1.score) ≤ alpha
        · rw [decide_eq_true hbr, cond_true, if_pos hbr]
          dsimp only
          exact ⟨rfl, by omega, by omega, hch2, hch3⟩
        · rw [decide_eq_false hbr, cond_false, if_neg hbr]
          exact ih hk9 b hlen
            (MMResult.mk ((8-k : Nat) : Int) ((next (b.set (8-k) (some m)) beta).1.score))
            (by show (-1:Int) ≤ ((8-k : Nat) : Int); omega)
            (by show ((8-k : Nat) : Int) ≤ 8; omega)
            hch2 hch3 alpha _ ha1 ha2 (le_min hb1 hch2)
            (le_trans (min_le_left beta _) hb2)
      · rw [decide_eq_false hlt, cond_false, if_neg hlt]
        by_cases hbr : min beta ((next (b.set (8-k) (some m)) beta).1.score) ≤ alpha
        · rw [decide_eq_true hbr, cond_true, if_pos hbr]
          dsimp only
          exact ⟨rfl, hbi1, hbi2, hbs1, hbs2⟩
        · rw [decide_eq_false hbr, cond_false, if_neg hbr]
          exact ih hk9 b hlen best hbi1 hbi2 hbs1 hbs2 alpha _ ha1 ha2
            (le_min hb1 hch2) (le_trans (min_le_left beta _) hb2)
    · have hbmk : Nat.beq (cellCode (some mk)) 0 = false := markCode_beq_zero mk
      rw [hbmk, cond_false]
      simp only [abMin, hc]
      exact ih hk9 b hlen best hbi1 hbi2 hbs1 hbs2 alpha beta ha1 ha2 hb1 hb2


/-- One-step unfolding of the fast search. -/
theorem minimaxF_succ (fuel b aiN hN : Nat) (aiT : Bool) (alpha beta depth : Nat) :
    minimaxF (fuel+1) b aiN hN aiT alpha beta depth =
      (forceN (checkWinF b) fun w =>
        cond (Nat.beq w aiN) (Nat.sub 1100 depth) <|
        cond (Nat.beq w hN) (Nat.add 900 depth) <|
        cond (fullF b) 1000 <|
        cond aiT
          (abMaxF (fun b' a' => minimaxF fuel b' aiN hN false a' beta (Nat.add depth 1))
            aiN 9 b 0 alpha beta)
          (abMinF (fun b' b'' => minimaxF fuel b' aiN hN true alpha b'' (Nat.add depth 1))
            hN 9 b 2000 alpha beta)) := rfl

/-- The fast search computes `minimax` on the packed state and keeps its
root record in range. -/
theorem minimaxF_correct :
    ∀ (fuel : Nat) {aiS hS : Mark}, aiS ≠ hS →
    ∀ (b : Board), b.length = 9 →
    ∀ (t : Bool) (alpha beta : Int) (depth : Nat),
      -1000 ≤ alpha → alpha ≤ 1000 → -1000 ≤ beta → beta ≤ 1000 →
      depth + fuel ≤ 1000 →
      minimaxF fuel (encB b) (markCode aiS) (markCode hS) t (encI alpha) (encI beta) depth
          = packR (minimax fuel b aiS hS t alpha beta depth).1 ∧
        -1 ≤ (minimax fuel b aiS hS t alpha beta depth).1.index ∧
        (minimax fuel b aiS hS t alpha beta depth).1.index ≤ 8 ∧
        -1000 ≤ (minimax fuel b aiS hS t alpha beta depth).1.score ∧
        (minimax fuel b aiS hS t alpha beta depth).1.score ≤ 1000 := by
  intro fuel
  induction fuel with
  | zero =>
    intro aiS hS hne b hlen t alpha beta depth _ _ _ _ _
    have he : minimax 0 b aiS hS t alpha beta depth = (⟨-1, 0⟩, b) := rfl
    rw [he]
    exact ⟨rfl, by show (-1:Int) ≤ -1; decide, by show (-1:Int) ≤ 8; decide,
      by show (-1000:Int) ≤ 0; decide, by show (0:Int) ≤ 1000; decide⟩
  | succ fuel ih =>
    intro aiS hS hne b hlen t alpha beta depth ha1 ha2 hb1 hb2 hdep
    rw [minimaxF_succ]
    simp only [forceN_eq, nsub_eq, nadd_eq]
    rw [checkWinF_encB hlen]
    simp only [minimax]
    rcases hw : checkWin b with _ | w
    · -- no winner: the draw test, then the loops
      dsimp only
      have h0a : Nat.beq 0 (markCode aiS) = false := by
        rw [beq_eq_decide]
        exact decide_eq_false (fun h => markCode_ne_zero aiS h.symm)
      have h0h : Nat.beq 0 (markCode hS) = false := by
        rw [beq_eq_decide]
        exact decide_eq_false (fun h => markCode_ne_zero hS h.symm)
      rw [h0a, cond_false, h0h, cond_false, fullF_encB hlen]
      have hdr : isDraw b = b.all (fun c => c.isSome) := by
        unfold isDraw
        rw [hw]
        simp
      rw [hdr]
      by_cases hfull : b.all (fun c => c.isSome) = true
      · rw [hfull, cond_true, if_pos rfl]
        exact ⟨rfl, by show (-1:Int) ≤ -1; decide, by show (-1:Int) ≤ 8; decide,
          by show (-1000:Int) ≤ 0; decide, by show (0:Int) ≤ 1000; decide⟩
      · rw [Bool.eq_false_iff.mpr hfull, cond_false, if_neg Bool.false_ne_true]
        cases t
        · -- minimizing turn
          rw [cond_false, if_neg Bool.false_ne_true]
          have Hch : ∀ (x : Board) (a : Int), x.length = 9 → -1000 ≤ a → a ≤ 1000 →
              (fun b' b'' => minimaxF fuel b' (markCode aiS) (markCode hS) true
                  (encI alpha) b'' (depth + 1)) (encB x) (encI a) % 10000
                = encI ((fun b' b'' => minimax fuel b' aiS hS true alpha b'' (depth+1)) x a).1.score ∧
              -1000 ≤ ((fun b' b'' => minimax fuel b' aiS hS true alpha b'' (depth+1)) x a).1.score ∧
              ((fun b' b'' => minimax fuel b' aiS hS true alpha b'' (depth+1)) x a).1.score ≤ 1000 ∧
              ((fun b' b'' => minimax fuel b' aiS hS true alpha b'' (depth+1)) x a).2 = x := by
            intro x a hl' h1 h2
            dsimp only
            obtain ⟨heq, hi1, hi2, hs1, hs2⟩ :=
              ih hne x hl' true alpha a (depth+1) ha1 ha2 h1 h2 (by omega)
            refine ⟨?_, hs1, hs2, minimax_board fuel x aiS hS true alpha a (depth+1)⟩
            rw [heq, packR_mod hi1 hs1 hs2]
          have H := @abMinF_correct
            (fun b' b'' => minimax fuel b' aiS hS true alpha b'' (depth+1))
            (fun b' b'' => minimaxF fuel b' (markCode aiS) (markCode hS) true
              (encI alpha) b'' (depth + 1))
            hS Hch 9 (by omega) b hlen ⟨-1, 1000⟩
            (by decide) (by decide) (by decide) (by decide)
            alpha beta ha1 ha2 hb1 hb2
          rw [show (9:Nat) - 9 = 0 from rfl] at H
          rw [List.range_eq_range' 9]
          exact H
        · -- maximizing turn
          rw [cond_true, if_pos rfl]
          have Hch : ∀ (x : Board) (a : Int), x.length = 9 → -1000 ≤ a → a ≤ 1000 →
              (fun b' a' => minimaxF fuel b' (markCode aiS) (markCode hS) false
                  a' (encI beta) (depth + 1)) (encB x) (encI a) % 10000
                = encI ((fun b' a' => minimax fuel b' aiS hS false a' beta (depth+1)) x a).1.score ∧
              -1000 ≤ ((fun b' a' => minimax fuel b' aiS hS false a' beta (depth+1)) x a).1.score ∧
              ((fun b' a' => minimax fuel b' aiS hS false a' beta (depth+1)) x a).1.score ≤ 1000 ∧
              ((fun b' a' => minimax fuel b' aiS hS false a' beta (depth+1)) x a).2 = x := by
            intro x a hl' h1 h2
            dsimp only
            obtain ⟨heq, hi1, hi2, hs1, hs2⟩ :=
              ih hne x hl' false a beta (depth+1) h1 h2 hb1 hb2 (by omega)
            refine ⟨?_, hs1, hs2, minimax_board fuel x aiS hS false a beta (depth+1)⟩
            rw [heq, packR_mod hi1 hs1 hs2]
          have H := @abMaxF_correct
            (fun b' a' => minimax fuel b' aiS hS false a' beta (depth+1))
            (fun b' a' => minimaxF fuel b' (markCode aiS) (markCode hS) false
              a' (encI beta) (depth + 1))
            aiS Hch 9 (by omega) b hlen ⟨-1, -1000⟩
            (by decide) (by decide) (by decide) (by decide)
            alpha beta ha1 ha2 hb1 hb2
          rw [show (9:Nat) - 9 = 0 from rfl] at H
          rw [List.range_eq_range' 9]
          exact H
    · -- a winner: one of the two terminal returns
      dsimp only
      have hba : Nat.beq (markCode w.winner) (markCode aiS) = decide (w.winner = aiS) := by
        rw [beq_eq_decide]
        exact decide_eq_decide.mpr markCode_inj
      have hbh : Nat.beq (markCode w.winner) (markCode hS) = decide (w.winner = hS) := by
        rw [beq_eq_decide]
        exact decide_eq_decide.mpr markCode_inj
      rw [hba, hbh]
      by_cases hwa : w.winner = aiS
      · rw [decide_eq_true hwa, cond_true, if_pos hwa]
        refine ⟨?_, by show (-1:Int) ≤ -1; decide, by show (-1:Int) ≤ 8; decide,
          by show (-1000:Int) ≤ 100 - (depth:Int); omega,
          by show (100:Int) - (depth:Int) ≤ 1000; omega⟩
        show 1100 - depth = ((-1 + 1) * 10000 + (100 - (depth:Int) + 1000)).toNat
        omega
      · rw [decide_eq_false hwa, cond_false, if_neg hwa]
        by_cases hwh : w.winner = hS
        · rw [decide_eq_true hwh, cond_true, if_pos hwh]
          refine ⟨?_, by show (-1:Int) ≤ -1; decide, by show (-1:Int) ≤ 8; decide,
            by show (-1000:Int) ≤ -100 + (depth:Int); omega,
            by show (-100:Int) + (depth:Int) ≤ 1000; omega⟩
          show 900 + depth = ((-1 + 1) * 10000 + (-100 + (depth:Int) + 1000)).toNat
          omega
        · exact absurd (mark_cases hne w.winner) (by simp [hwa, hwh])


/-- The symbol swap is an involution. -/
theorem Mark.other_other (m : Mark) : m.other.other = m := by
  cases m <;> rfl

/-- The root move selector agrees with its fast mirror (which returns the
chosen index shifted by one), and always returns an index in `[-1, 8]`. -/
theorem aiMinimaxMoveF_correct (b : Board) (hlen : b.length = 9) (aiS : Mark) (rnd : Nat) :
    aiMinimaxMoveF (encB b) (markCode aiS) (markCode aiS.other) rnd
        = (aiMinimaxMove b aiS rnd + 1).toNat ∧
      -1 ≤ aiMinimaxMove b aiS rnd ∧ aiMinimaxMove b aiS rnd ≤ 8 := by
  have hoth : (if aiS = Mark.X then Mark.O else Mark.X) = aiS.other := by
    cases aiS <;> rfl
  simp only [aiMinimaxMove, aiMinimaxMoveF, hoth]
  by_cases hemp : b.all (fun c => c = none) = true
  · have h0 : encB b = 0 := (encB_eq_zero b).mpr hemp
    have hbeq : Nat.beq (encB b) 0 = true := by
      rw [h0]
      rfl
    rw [hbeq, cond_true, if_pos hemp]
    unfold cornerOfF
    simp only [nmod_eq]
    have h4 : rnd % 4 = 0 ∨ rnd % 4 = 1 ∨ rnd % 4 = 2 ∨ rnd % 4 = 3 := by omega
    rcases h4 with h | h | h | h <;> rw [h] <;> exact ⟨rfl, by decide, by decide⟩
  · have h0 : encB b ≠ 0 := fun hh => hemp ((encB_eq_zero b).mp hh)
    have hbeq : Nat.beq (encB b) 0 = false := by
      rw [beq_eq_decide]
      exact decide_eq_false h0
    rw [hbeq, cond_false, if_neg hemp]
    simp only [INF]
    have hne : aiS ≠ aiS.other := by cases aiS <;> decide
    obtain ⟨heq, hi1, hi2, hs1, hs2⟩ := minimaxF_correct 9 hne b hlen true (-1000) 1000 0
      (by decide) (by decide) (by decide) (by decide) (by decide)
    have heq' : minimaxF 9 (encB b) (markCode aiS) (markCode aiS.other) true 0 2000 0
        = packR (minimax 9 b aiS aiS.other true (-1000) 1000 0).1 := heq
    simp only [ndiv_eq]
    rw [heq', packR_div hi1 hs1 hs2]
    exact ⟨rfl, hi1, hi2⟩

/-- One-step unfolding of the fast self-play driver. -/
theorem selfPlayF_succ (n b mN oN r : Nat) :
    selfPlayF (n+1) b mN oN r =
      cond ((Nat.beq (checkWinF b) 0).not.or (isDrawF b)) b
        (forceN (aiMinimaxMoveF b mN oN r) fun i1 =>
          cond ((Nat.ble 1 i1).and ((Nat.ble i1 9).and (Nat.beq (getF b (Nat.sub i1 1)) 0)))
            (selfPlayF n (setF b (Nat.sub i1 1) mN) oN mN r)
            b) := rfl

/-- The self-play driver agrees with its fast mirror on the board encoding
and preserves the board length. -/
theorem selfPlay_correct :
    ∀ (n : Nat) (b : Board), b.length = 9 → ∀ (m : Mark) (r : Nat),
      selfPlayF n (encB b) (markCode m) (markCode m.other) r = encB (selfPlay n b m r) ∧
      (selfPlay n b m r).length = 9 := by
  intro n
  induction n with
  | zero =>
    intro b hlen m r
    exact ⟨rfl, hlen⟩
  | succ n ih =>
    intro b hlen m r
    rw [selfPlayF_succ]
    have hterm : ((Nat.beq (checkWinF (encB b)) 0).not.or (isDrawF (encB b)))
        = ((checkWin b).isSome || isDraw b) := by
      unfold isDrawF
      rw [checkWinF_encB hlen, fullF_encB hlen]
      rcases hw : checkWin b with _ | w
      · simp [isDraw, hw]
      · simp [isDraw, hw, markCode_beq_zero]
    rw [hterm]
    simp only [selfPlay]
    by_cases ht : ((checkWin b).isSome || isDraw b) = true
    · rw [ht, cond_true, if_pos rfl]
      exact ⟨rfl, hlen⟩
    · rw [Bool.eq_false_iff.mpr ht, cond_false, if_neg Bool.false_ne_true]
      obtain ⟨haim, hi1, hi2⟩ := aiMinimaxMoveF_correct b hlen m r
      rw [haim, forceN_eq]
      by_cases h0i : 0 ≤ aiMinimaxMove b m r
      · have htn : (aiMinimaxMove b m r + 1).toNat = (aiMinimaxMove b m r).toNat + 1 := by
          omega
        rw [htn]
        have hsub : Nat.sub ((aiMinimaxMove b m r).toNat + 1) 1
            = (aiMinimaxMove b m r).toNat := by
          rw [nsub_eq]
          omega
        rw [hsub]
        have hble1 : Nat.ble 1 ((aiMinimaxMove b m r).toNat + 1) = true := by
          rw [ble_eq_decide]
          exact decide_eq_true (by omega)
        rw [hble1, Bool.true_and]
        have hble9 : Nat.ble ((aiMinimaxMove b m r).toNat + 1) 9 = true := by
          rw [ble_eq_decide]
          exact decide_eq_true (by omega)
        rw [hble9, Bool.true_and]
        rw [getF_encB b (aiMinimaxMove b m r).toNat (by omega)]
        obtain ⟨c, hc⟩ : ∃ c, b[(aiMinimaxMove b m r).toNat]? = some c := by
          rcases hx : b[(aiMinimaxMove b m r).toNat]? with _ | c
          · rw [List.getElem?_eq_none_iff] at hx
            omega
          · exact ⟨c, rfl⟩
        have hcl : cellAt b (aiMinimaxMove b m r).toNat = c := by
          unfold cellAt
          rw [hc]
          rfl
        rw [hcl]
        rcases c with _ | mk
        · have hb00 : Nat.beq (cellCode none) 0 = true := rfl
          rw [hb00, cond_true, if_pos ⟨h0i, hi2, hc⟩]
          have hset : setF (encB b) (aiMinimaxMove b m r).toNat (markCode m)
              = encB (b.set (aiMinimaxMove b m r).toNat (some m)) :=
            setF_encB b _ (some m) (by omega)
          rw [hset]
          have hoo : markCode m = markCode m.other.other := by cases m <;> rfl
          rw [hoo]
          exact ih (b.set (aiMinimaxMove b m r).toNat (some m))
            (by rw [List.length_set]; exact hlen) m.other r
        · have hbmk : Nat.beq (cellCode (some mk)) 0 = false := markCode_beq_zero mk
          rw [hbmk, cond_false]
          rw [if_neg (by intro hand; have h2 := hc.symm.trans hand.2.2; simp at h2)]
          exact ⟨rfl, hlen⟩
      · have htn : (aiMinimaxMove b m r + 1).toNat = 0 := by omega
        rw [htn]
        have hble : Nat.ble 1 0 = false := rfl
        rw [hble, Bool.false_and, cond_false]
        rw [if_neg (fun hand => h0i hand.1)]
        exact ⟨rfl, hlen⟩



/-- On a non-empty board the fast selector ignores its random draw. -/
theorem aiMinimaxMoveF_irrel (b mN oN : Nat) (hb : Nat.beq b 0 = false) (r r' : Nat) :
    aiMinimaxMoveF b mN oN r = aiMinimaxMoveF b mN oN r' := by
  unfold aiMinimaxMoveF
  rw [hb]
  rfl

/-- From a non-empty board the fast driver ignores its random draw (every
move writes a non-zero digit, so the board stays non-empty). -/
theorem selfPlayF_irrel :
    ∀ (n b mN oN : Nat), mN ≠ 0 → oN ≠ 0 → Nat.beq b 0 = false →
      ∀ (r r' : Nat), selfPlayF n b mN oN r = selfPlayF n b mN oN r' := by
  intro n
  induction n with
  | zero =>
    intro b mN oN _ _ _ r r'
    rfl
  | succ n ih =>
    intro b mN oN hm ho hb r r'
    rw [selfPlayF_succ, selfPlayF_succ, aiMinimaxMoveF_irrel b mN oN hb r r']
    cases hterm : ((Nat.beq (checkWinF b) 0).not.or (isDrawF b))
    · simp only [cond_false, forceN_eq]
      congr 1
      exact ih (setF b (Nat.sub (aiMinimaxMoveF b mN oN r') 1) mN) oN mN ho hm
        (by rw [beq_eq_decide]; exact decide_eq_false (setF_ne_zero _ _ hm)) r r'
    · simp only [cond_true]

/-- Exhaustive run of the self-play game whose opening corner is cell 0
(the opening draw is dead once the board is non-empty). -/
theorem selfPlayF_draw_c0 (r : Nat) : isDrawF (selfPlayF 8 1 2 1 r) = true := by
  rw [selfPlayF_irrel 8 1 2 1 (by decide) (by decide) (by decide) r 0]
  decide

/-- Exhaustive run of the self-play game whose opening corner is cell 2. -/
theorem selfPlayF_draw_c1 (r : Nat) : isDrawF (selfPlayF 8 9 2 1 r) = true := by
  rw [selfPlayF_irrel 8 9 2 1 (by decide) (by decide) (by decide) r 0]
  decide

/-- Exhaustive run of the self-play game whose opening corner is cell 6. -/
theorem selfPlayF_draw_c2 (r : Nat) : isDrawF (selfPlayF 8 729 2 1 r) = true := by
  rw [selfPlayF_irrel 8 729 2 1 (by decide) (by decide) (by decide) r 0]
  decide

/-- Exhaustive run of the self-play game whose opening corner is cell 8. -/
theorem selfPlayF_draw_c3 (r : Nat) : isDrawF (selfPlayF 8 6561 2 1 r) = true := by
  rw [selfPlayF_irrel 8 6561 2 1 (by decide) (by decide) (by decide) r 0]
  decide


/-- One applied step of the fast driver, under explicit computed facts. -/
theorem selfPlayF_step (b mN oN r i1 : Nat)
    (h1 : ((Nat.beq (checkWinF b) 0).not.or (isDrawF b)) = false)
    (h2 : aiMinimaxMoveF b mN oN r = i1)
    (h3 : ((Nat.ble 1 i1).and ((Nat.ble i1 9).and
      (Nat.beq (getF b (Nat.sub i1 1)) 0))) = true)
    (n : Nat) :
    selfPlayF (n+1) b mN oN r = selfPlayF n (setF b (Nat.sub i1 1) mN) oN mN r := by
  rw [selfPlayF_succ, h1, cond_false, h2, forceN_eq, h3, cond_true]

/-- C1: every self-play game in which both marks choose their moves with
`aiMinimaxMove` (the Optimal Strategy), starting from the all-empty board,
ends with the final board evaluating to `Draw`, whichever random corner the
opening-book shortcut picks for the first move. -/
theorem C1_optimal_self_play_draw (r : Nat) :
    evaluate (selfPlay 9 (List.replicate 9 none) Mark.X r) = Outcome.draw := by
  obtain ⟨henc, hlen9⟩ := selfPlay_correct 9 (List.replicate 9 none) (by simp) Mark.X r
  have henc' : selfPlayF 9 0 1 2 r
      = encB (selfPlay 9 (List.replicate 9 none) Mark.X r) := henc
  have hfast : isDrawF (selfPlayF 9 0 1 2 r) = true := by
    have h4 : r % 4 = 0 ∨ r % 4 = 1 ∨ r % 4 = 2 ∨ r % 4 = 3 := by omega
    rcases h4 with h | h | h | h
    · have haim : aiMinimaxMoveF 0 1 2 r = 1 := by
        unfold aiMinimaxMoveF cornerOfF
        simp only [nmod_eq]
        rw [h]
        rfl
      have h9 : selfPlayF 9 0 1 2 r = selfPlayF 8 (setF 0 (Nat.sub 1 1) 1) 2 1 r :=
        selfPlayF_step 0 1 2 r 1 rfl haim rfl 8
      rw [h9, show setF 0 (Nat.sub 1 1) 1 = 1 from rfl]
      exact selfPlayF_draw_c0 r
    · have haim : aiMinimaxMoveF 0 1 2 r = 3 := by
        unfold aiMinimaxMoveF cornerOfF
        simp only [nmod_eq]
        rw [h]
        rfl
      have h9 : selfPlayF 9 0 1 2 r = selfPlayF 8 (setF 0 (Nat.sub 3 1) 1) 2 1 r :=
        selfPlayF_step 0 1 2 r 3 rfl haim rfl 8
      rw [h9, show setF 0 (Nat.sub 3 1) 1 = 9 from rfl]
      exact selfPlayF_draw_c1 r
    · have haim : aiMinimaxMoveF 0 1 2 r = 7 := by
        unfold aiMinimaxMoveF cornerOfF
        simp only [nmod_eq]
        rw [h]
        rfl
      have h9 : selfPlayF 9 0 1 2 r = selfPlayF 8 (setF 0 (Nat.sub 7 1) 1) 2 1 r :=
        selfPlayF_step 0 1 2 r 7 rfl haim rfl 8
      rw [h9, show setF 0 (Nat.sub 7 1) 1 = 729 from rfl]
      exact selfPlayF_draw_c2 r
    · have haim : aiMinimaxMoveF 0 1 2 r = 9 := by
        unfold aiMinimaxMoveF cornerOfF
        simp only [nmod_eq]
        rw [h]
        rfl
      have h9 : selfPlayF 9 0 1 2 r = selfPlayF 8 (setF 0 (Nat.sub 9 1) 1) 2 1 r :=
        selfPlayF_step 0 1 2 r 9 rfl haim rfl 8
      rw [h9, show setF 0 (Nat.sub 9 1) 1 = 6561 from rfl]
      exact selfPlayF_draw_c3 r
  rw [henc'] at hfast
  unfold isDrawF at hfast
  rw [fullF_encB hlen9, checkWinF_encB hlen9, Bool.and_eq_true] at hfast
  obtain ⟨hfull, hbeq⟩ := hfast
  rcases hw : checkWin (selfPlay 9 (List.replicate 9 none) Mark.X r) with _ | w
  · have hd : isDraw (selfPlay 9 (List.replicate 9 none) Mark.X r) = true := by
      unfold isDraw
      rw [hw, hfull]
      rfl
    unfold evaluate
    simp only [hw]
    rw [if_pos hd]
  · exfalso
    simp only [hw] at hbeq
    rw [markCode_beq_zero] at hbeq
    exact Bool.false_ne_true hbeq

end TicTacToe